import Mathlib

/-
Verification development for the demo event-store repository.

The JavaScript modules are shallowly embedded as Lean functions over an
explicit heap of JS objects.  Object identity and aliasing are modelled by
addresses (`Nat`) into a heap (`List JObj`); `JSON.parse(JSON.stringify _)`
deep cloning is modelled by a serializer into pure `Json` trees followed by
an allocator (`unparse`) that materialises the tree at fresh addresses.
ISO timestamp strings are represented by their integer time values (the
code only ever produces them via `toISOString` and re-parses them with
`new Date`, which round-trips exactly).
-/

set_option maxRecDepth 10000

/-- A JavaScript runtime value as it appears in an object field: primitives,
functions (identified by an id, only relevant as non-serializable data), and
references to heap objects. -/
inductive JVal where
  | vnull
  | vundef
  | vbool (b : Bool)
  | vnum (n : Int)
  | vstr (s : String)
  | vfun (fid : Nat)
  | vref (a : Nat)
deriving DecidableEq, Repr

/-- A heap object: a plain object (ordered field list) or an array. -/
inductive JObj where
  | obj (fields : List (String × JVal))
  | arr (elems : List JVal)
deriving DecidableEq, Repr

/-- The JS heap: address `a` denotes the object at index `a`. -/
abbrev Heap := List JObj

def heapGet (h : Heap) (a : Nat) : Option JObj := h.get? a

/-- Pure JSON trees, the result of serialization.  `jundef` marks the
transient "undefined" result `JSON.stringify` produces for functions and
undefined values before dropping them from objects (or nulling them in
arrays). -/
inductive Json where
  | jnull
  | jundef
  | jbool (b : Bool)
  | jnum (n : Int)
  | jstr (s : String)
  | jobj (fields : List (String × Json))
  | jarr (elems : List Json)

/-- Whether a serialized value is the transient "undefined" marker. -/
def Json.isUndef : Json → Bool
  | .jundef => true
  | _ => false

/-- Serialization failure: a cyclic reference, or fuel exhaustion (the fuel
is an artifact of the embedding; with sufficient fuel it never occurs). -/
inductive SErr where
  | cyc
  | fuel
deriving DecidableEq, Repr

mutual
/-- Model of `JSON.stringify` on a value: `path` is the chain of object
addresses currently being serialized, used to detect cycles exactly as the
JS algorithm does. -/
def serializeV (h : Heap) (fuel : Nat) (path : List Nat) (v : JVal) :
    Except SErr Json :=
  match v with
  | .vnull => .ok .jnull
  | .vundef => .ok .jundef
  | .vbool b => .ok (.jbool b)
  | .vnum n => .ok (.jnum n)
  | .vstr s => .ok (.jstr s)
  | .vfun _ => .ok .jundef
  | .vref a =>
    if a ∈ path then .error .cyc
    else
      match fuel, heapGet h a with
      | _, none => .ok .jnull
      | 0, some _ => .error .fuel
      | f + 1, some (.obj fs) => (serializeFs h f (a :: path) fs).map Json.jobj
      | f + 1, some (.arr es) => (serializeEs h f (a :: path) es).map Json.jarr
termination_by (fuel, 0)

/-- Serialize an object's field list; fields whose value serializes to
`jundef` (functions, undefined) are silently dropped. -/
def serializeFs (h : Heap) (fuel : Nat) (path : List Nat)
    (l : List (String × JVal)) : Except SErr (List (String × Json)) :=
  match l with
  | [] => .ok []
  | (k, v) :: rest =>
    match serializeV h fuel path v with
    | .error e => .error e
    | .ok jv =>
      match serializeFs h fuel path rest with
      | .error e => .error e
      | .ok jrest => .ok (if jv.isUndef then jrest else (k, jv) :: jrest)
termination_by (fuel, l.length + 1)

/-- Serialize an array's elements; non-serializable members become `null`. -/
def serializeEs (h : Heap) (fuel : Nat) (path : List Nat) (l : List JVal) :
    Except SErr (List Json) :=
  match l with
  | [] => .ok []
  | v :: rest =>
    match serializeV h fuel path v with
    | .error e => .error e
    | .ok jv =>
      match serializeEs h fuel path rest with
      | .error e => .error e
      | .ok jrest => .ok ((if jv.isUndef then Json.jnull else jv) :: jrest)
termination_by (fuel, l.length + 1)
end

/-- Enough fuel to serialize anything in heap `h` without spurious fuel
exhaustion (the cycle-detection path can never exceed the heap size). -/
def serFuel (h : Heap) : Nat := h.length + 1

/-- Model of `JSON.stringify` as used by the code: serialize from an empty
path with sufficient fuel. -/
def serialize (h : Heap) (v : JVal) : Except SErr Json :=
  serializeV h (serFuel h) [] v

mutual
/-- Model of `JSON.parse` on a serialized tree: materialise the tree in the
heap, allocating a fresh address for every object/array node (children
first, so every reference points to a strictly smaller fresh address). -/
def unparse (h : Heap) : Json → Heap × JVal
  | .jnull => (h, .vnull)
  | .jundef => (h, .vundef)
  | .jbool b => (h, .vbool b)
  | .jnum n => (h, .vnum n)
  | .jstr s => (h, .vstr s)
  | .jobj fs =>
    let p := unparseFs h fs
    (p.1 ++ [.obj p.2], .vref p.1.length)
  | .jarr es =>
    let p := unparseEs h es
    (p.1 ++ [.arr p.2], .vref p.1.length)

def unparseFs (h : Heap) : List (String × Json) → Heap × List (String × JVal)
  | [] => (h, [])
  | (k, j) :: rest =>
    let p := unparse h j
    let q := unparseFs p.1 rest
    (q.1, (k, p.2) :: q.2)

def unparseEs (h : Heap) : List Json → Heap × List JVal
  | [] => (h, [])
  | j :: rest =>
    let p := unparse h j
    let q := unparseEs p.1 rest
    (q.1, p.2 :: q.2)
end

/-- Allocate a fresh object literal in the heap, returning the reference. -/
def allocObj (h : Heap) (fs : List (String × JVal)) : Heap × JVal :=
  (h ++ [.obj fs], .vref h.length)

/-- JS property assignment on a field list: overwrite an existing key in
place, or append a new one. -/
def setF : List (String × JVal) → String → JVal → List (String × JVal)
  | [], k, v => [(k, v)]
  | (k', v') :: rest, k, v =>
    if k' = k then (k, v) :: rest else (k', v') :: setF rest k v

/-- Build an object literal by spreading `base` and then adding/overriding
the `extra` fields in order (JS `{ ...base, k1: v1, ... }`). -/
def objLit (base : List (String × JVal)) (extra : List (String × JVal)) :
    List (String × JVal) :=
  extra.foldl (fun fs kv => setF fs kv.1 kv.2) base

/-- Mutate field `k` of the object at address `a` (JS `o[k] = v`). -/
def setField (h : Heap) (a : Nat) (k : String) (v : JVal) : Heap :=
  match heapGet h a with
  | some (.obj fs) => h.set a (.obj (setF fs k v))
  | _ => h

/-- JS truthiness of a value. -/
def truthy : JVal → Bool
  | .vnull => false
  | .vundef => false
  | .vbool b => b
  | .vnum n => n != 0
  | .vstr s => !s.data.isEmpty
  | .vfun _ => true
  | .vref _ => true

/-- JS property read `v[k]` (returns `undefined` for missing keys; the code
only reads properties of plain objects). -/
def getField (h : Heap) (v : JVal) (k : String) : JVal :=
  match v with
  | .vref a =>
    match heapGet h a with
    | some (.obj fs) =>
      match fs.lookup k with
      | some x => x
      | none => .vundef
    | _ => .vundef
  | _ => JVal.vundef

/-- The fields of a value that passes the code's
`typeof metadata === 'object' && metadata !== null && !Array.isArray(metadata)`
check: a reference to a plain (non-array) heap object. -/
def metaFields (h : Heap) : JVal → Option (List (String × JVal))
  | .vref a =>
    match heapGet h a with
    | some (.obj fs) => some fs
    | _ => none
  | _ => none

/-- Whitespace for JS `trim` (the claims only involve ASCII whitespace). -/
def wsp (c : Char) : Bool := c = ' ' || c = '\t' || c = '\n' || c = '\r'

/-- Model of JS `String.prototype.trim`, computed on the character list so
that proofs can evaluate it. -/
def jsTrim (s : String) : String :=
  String.mk (((s.data.dropWhile wsp).reverse.dropWhile wsp).reverse)

/-- Model of JS `String.prototype.startsWith`. -/
def jsStartsWith (s pre : String) : Bool := pre.data.isPrefixOf s.data

/-- `typeof x === 'string' && x.trim().length > 0`, returning the trimmed
string on success. -/
def asNonEmptyString : JVal → Option String
  | .vstr s => if (jsTrim s).data.isEmpty then none else some (jsTrim s)
  | _ => none

/-- A stored event record.  The scalar fields are immutable copies (JS
strings/numbers are values); `metadata` is a JS value, so aliasing of the
metadata object is tracked through the heap.  `timestamp` is the integer
time value of the ISO string produced by `toISOString`. -/
structure EventRec where
  id : Nat
  type : String
  message : String
  metadata : JVal
  timestamp : Int
deriving DecidableEq

/-- The module-level mutable state of the event module: the shared JS heap,
the `events` array and the `eventIdCounter`. -/
structure EState where
  heap : Heap
  events : List EventRec
  eventIdCounter : Nat

/-- Result of `createEvent`. -/
inductive CreateResult where
  | ok (event : EventRec) (message : String)
  | err (error : String)
deriving DecidableEq

def CreateResult.isOk : CreateResult → Bool
  | .ok _ _ => true
  | .err _ => false

def CreateResult.okId : CreateResult → Nat
  | .ok e _ => e.id
  | .err _ => 0

/-- Result of `getEvents` / `getAuditEvents`. -/
inductive QueryResult where
  | ok (events : List EventRec) (count : Nat)
  | err (error : String)
deriving DecidableEq

/-- Result of `getEventById`. -/
inductive ByIdResult where
  | ok (event : EventRec)
  | err (error : String)
deriving DecidableEq

/-- Result of `clearEvents`. -/
inductive ClearResult where
  | ok (message : String) (count : Nat)
deriving DecidableEq

/-- Result of `getEventCount`. -/
inductive CountResult where
  | ok (count : Nat) (type : Option String)
  | err (error : String)
deriving DecidableEq

/-- Result of `getAuditEventsByTimeRange`: on success the filtered events
plus the normalized time range (integer time values of the ISO bounds). -/
inductive TimeRangeResult where
  | ok (events : List EventRec) (count : Nat) (rangeStart rangeEnd : Int)
  | err (error : String)
deriving DecidableEq

/-- Argument to `getAuditEventsByTimeRange`: a `Date`/string that parses to
the given time value, or one that fails to parse (`NaN` time value). -/
inductive DateInput where
  | valid (t : Int)
  | invalid
deriving DecidableEq

/-- `new Date(x).getTime()` with `NaN` modelled as `none`. -/
def parseDate : DateInput → Option Int
  | .valid t => some t
  | .invalid => none

namespace EventJs

/-! Embedding of `src/event.js`: the event module with audit support.
`createEvent` stores a *shallow* copy (`{ ...metadata }`) of the metadata
object; reads return the stored records themselves (`[...filteredEvents]`)
or shallow copies (`{ ...event }`), so the metadata object is shared. -/

/-- The `AUDIT_EVENT_TYPES` constants used by the claims. -/
def LOGIN_SUCCESS : String := "audit.login.success"

def LOGIN_FAILURE : String := "audit.login.failure"

def LOGIN_ATTEMPT : String := "audit.login.attempt"

def SUSPICIOUS_ACTIVITY : String := "audit.security.suspicious"

/-- `createEvent(type, message, metadata)` of `src/event.js`.  `now` is the
ambient clock value used for `new Date().toISOString()`. -/
def createEvent (s : EState) (now : Int) (type message metadata : JVal) :
    EState × CreateResult :=
  match asNonEmptyString type with
  | none => (s, .err "Event type is required and must be a non-empty string")
  | some t =>
    match asNonEmptyString message with
    | none => (s, .err "Event message is required and must be a non-empty string")
    | some m =>
      match metaFields s.heap metadata with
      | none => (s, .err "Metadata must be an object")
      | some fs =>
        let ev : EventRec :=
          { id := s.eventIdCounter, type := t, message := m
            metadata := .vref s.heap.length, timestamp := now }
        (⟨s.heap ++ [.obj fs], s.events ++ [ev], s.eventIdCounter + 1⟩,
         .ok ev "Event created successfully")

/-- `getEvents(type)` of `src/event.js`; `none` is the `null` default. -/
def getEvents (s : EState) (type : Option JVal) : QueryResult :=
  match type with
  | none => .ok s.events s.events.length
  | some tv =>
    match asNonEmptyString tv with
    | none => .err "Event type must be a non-empty string when provided"
    | some t =>
      let l := s.events.filter (fun e => e.type == t)
      .ok l l.length

/-- `getEventById(id)` of `src/event.js`.  The returned record is the JS
shallow copy `{ ...event }`: scalar fields copied, metadata reference
shared. -/
def getEventById (s : EState) (id : JVal) : ByIdResult :=
  match id with
  | .vnum n =>
    if n ≤ 0 then .err "Event ID must be a positive integer"
    else
      match s.events.find? (fun e => (e.id : Int) == n) with
      | none => .err ("Event with ID " ++ toString n ++ " not found")
      | some e => .ok e
  | _ => .err "Event ID must be a positive integer"

/-- `clearEvents()` of `src/event.js`. -/
def clearEvents (s : EState) : EState × ClearResult :=
  (⟨s.heap, [], 1⟩,
   .ok ("Cleared " ++ toString s.events.length ++ " event(s)") s.events.length)

/-- `getEventCount(type)` of `src/event.js`. -/
def getEventCount (s : EState) (type : Option JVal) : CountResult :=
  match type with
  | none => .ok s.events.length none
  | some tv =>
    match asNonEmptyString tv with
    | none => .err "Event type must be a non-empty string when provided"
    | some t => .ok (s.events.filter (fun e => e.type == t)).length (some t)

/-- `createAuditEvent(type, message, metadata)` of `src/event.js`: builds
the enriched `auditMetadata` object literal and delegates to `createEvent`.
The `auditTimestamp` ISO string is represented by the clock value. -/
def createAuditEvent (s : EState) (now : Int) (type message metadata : JVal) :
    EState × CreateResult :=
  let sev := getField s.heap metadata "severity"
  let src := getField s.heap metadata "source"
  let fs := objLit (match metaFields s.heap metadata with
                    | some base => base
                    | none => [])
    [("severity", if truthy sev then sev else .vstr "info"),
     ("source", if truthy src then src else .vstr "system"),
     ("auditTimestamp", .vnum now)]
  let p := allocObj s.heap fs
  createEvent ⟨p.1, s.events, s.eventIdCounter⟩ now type message p.2

/-- `getAuditEvents(auditType)` of `src/event.js`: with no argument,
filters events whose type starts with `"audit."`; with an argument, exact
type match. -/
def getAuditEvents (s : EState) (auditType : Option JVal) : QueryResult :=
  match auditType with
  | some tv =>
    match asNonEmptyString tv with
    | none => .err "Audit type must be a non-empty string when provided"
    | some t =>
      let l := s.events.filter (fun e => e.type == t)
      .ok l l.length
  | none =>
    let l := s.events.filter (fun e => jsStartsWith e.type "audit.")
    .ok l l.length

/-- `getAuditEventsByTimeRange(startTime, endTime)` of `src/event.js`. -/
def getAuditEventsByTimeRange (s : EState) (startTime endTime : DateInput) :
    TimeRangeResult :=
  match parseDate startTime, parseDate endTime with
  | some ts, some te =>
    if ts > te then .err "Start time must be before end time"
    else
      let auditEvents := s.events.filter (fun e => jsStartsWith e.type "audit.")
      let l := auditEvents.filter
        (fun e => decide (ts ≤ e.timestamp) && decide (e.timestamp ≤ te))
      .ok l l.length ts te
  | _, _ => .err "Invalid time range provided"

end EventJs

/-- Arguments of one `createEvent` call. -/
structure CreateCall where
  now : Int
  type : JVal
  message : JVal
  metadata : JVal

/-- Run a sequence of `createEvent` calls against `src/event.js`,
collecting the per-call results. -/
def runCreates (s : EState) : List CreateCall → EState × List CreateResult
  | [] => (s, [])
  | c :: rest =>
    let p := EventJs.createEvent s c.now c.type c.message c.metadata
    let q := runCreates p.1 rest
    (q.1, p.2 :: q.2)

/-- A concrete store used by witnesses: one heap object, three events (two
of type `"a"`, one of audit type), next id 4. -/
def sampleState : EState :=
  ⟨[JObj.obj []],
   [⟨1, "a", "m", .vnull, 10⟩, ⟨2, "audit.login", "m", .vnull, 20⟩,
    ⟨3, "a", "m", .vnull, 30⟩], 4⟩

/-- A record of the fixed simulated user database shared by both login
variants. -/
structure UserRec where
  username : String
  password : String
  role : String
deriving DecidableEq

/-- The `users` list of `src/login.js` and of the audit login variant. -/
def users : List UserRec :=
  [⟨"admin", "admin123", "administrator"⟩,
   ⟨"user", "user123", "user"⟩,
   ⟨"demo", "demo123", "user"⟩]

/-- Result of `login`. -/
inductive LoginResult where
  | ok (username role : String) (message : String)
  | err (error : String)
deriving DecidableEq

/-- The username character class of `/^[a-zA-Z0-9._-]+$/`. -/
def allowedChar (c : Char) : Bool :=
  ('a' ≤ c && c ≤ 'z') || ('A' ≤ c && c ≤ 'Z') || ('0' ≤ c && c ≤ '9') ||
    c = '.' || c = '_' || c = '-'

/-- `usernamePattern.test(u)` for `/^[a-zA-Z0-9._-]+$/`. -/
def patternTest (u : String) : Bool :=
  !u.data.isEmpty && u.data.all allowedChar

namespace LoginJs

/-! Embedding of `src/login.js`: the login variant WITHOUT audit logging.
It references no event store at all; `login` is a pure function of its
arguments. -/

/-- `login(username, password)` of `src/login.js`. -/
def login (username password : JVal) : LoginResult :=
  match username with
  | .vstr u =>
    match password with
    | .vstr p =>
      if u.length > 255 then
        .err "Username is too long (maximum 255 characters)"
      else if p.length > 255 then
        .err "Password is too long (maximum 255 characters)"
      else
        let u' := jsTrim u
        let p' := jsTrim p
        if u'.data.isEmpty then .err "Username cannot be empty"
        else if p'.data.isEmpty then .err "Password cannot be empty"
        else if !patternTest u' then
          .err "Username contains invalid characters (only letters, numbers, dots, hyphens, and underscores allowed)"
        else
          match users.find? (fun usr => usr.username == u') with
          | none => .err "Invalid username or password"
          | some usr =>
            if usr.password ≠ p' then .err "Invalid username or password"
            else .ok usr.username usr.role "Login successful"
    | _ => .err "Password is required and must be a string"
  | _ => .err "Username is required and must be a string"

/-- Calling `src/login.js`'s `login` in a program that also holds the
event store: the module never imports or touches the store, so the store
state passes through unchanged. -/
def loginWithStore (s : EState) (username password : JVal) :
    EState × LoginResult :=
  (s, login username password)

end LoginJs

namespace LoginAudit

/-! Embedding of the audit-logging login variant (`src/unnamed/part_004`),
which delegates every audit record to `createAuditEvent` of
`src/event.js`. -/

/-- Allocate an audit-metadata object literal and append the corresponding
audit event through `createAuditEvent` (whose own result is discarded by
the login code). -/
def emitAudit (s : EState) (now : Int) (ty msg : String)
    (fs : List (String × JVal)) : EState :=
  let p := allocObj s.heap fs
  (EventJs.createAuditEvent ⟨p.1, s.events, s.eventIdCounter⟩
    now (.vstr ty) (.vstr msg) p.2).1

/-- `login(username, password)` of the audit variant.  The
`attemptMetadata` object is modelled by its field list; every audit call
allocates the corresponding literal, exactly as each JS call site builds
`{ ...attemptMetadata, ... }`. -/
def login (s : EState) (now : Int) (username password : JVal) :
    EState × LoginResult :=
  let am : List (String × JVal) :=
    [("username", if truthy username then username else .vstr "undefined"),
     ("severity", .vstr "info"),
     ("source", .vstr "login")]
  match username with
  | .vstr u =>
    match password with
    | .vstr p =>
      if u.length > 255 then
        (emitAudit s now EventJs.SUSPICIOUS_ACTIVITY
          "Suspicious activity: Username exceeds maximum length"
          (objLit am [("reason", .vstr "username_too_long"),
                      ("length", .vnum u.length),
                      ("severity", .vstr "warning")]),
         .err "Username is too long (maximum 255 characters)")
      else if p.length > 255 then
        (emitAudit s now EventJs.SUSPICIOUS_ACTIVITY
          "Suspicious activity: Password exceeds maximum length"
          (objLit am [("reason", .vstr "password_too_long"),
                      ("length", .vnum p.length),
                      ("severity", .vstr "warning")]),
         .err "Password is too long (maximum 255 characters)")
      else
        let u' := jsTrim u
        let p' := jsTrim p
        let am' := setF am "username" (.vstr u')
        if u'.data.isEmpty then
          (emitAudit s now EventJs.LOGIN_FAILURE "Login failed: Empty username"
            (objLit am' [("reason", .vstr "empty_username")]),
           .err "Username cannot be empty")
        else if p'.data.isEmpty then
          (emitAudit s now EventJs.LOGIN_FAILURE "Login failed: Empty password"
            (objLit am' [("reason", .vstr "empty_password")]),
           .err "Password cannot be empty")
        else if !patternTest u' then
          (emitAudit s now EventJs.SUSPICIOUS_ACTIVITY
            "Suspicious activity: Username contains invalid characters"
            (objLit am' [("reason", .vstr "invalid_characters"),
                         ("severity", .vstr "warning")]),
           .err "Username contains invalid characters (only letters, numbers, dots, hyphens, and underscores allowed)")
        else
          let s1 := emitAudit s now EventJs.LOGIN_ATTEMPT "User login attempt" am'
          match users.find? (fun usr => usr.username == u') with
          | none =>
            (emitAudit s1 now EventJs.LOGIN_FAILURE "Login failed: User not found"
              (objLit am' [("reason", .vstr "user_not_found"),
                           ("severity", .vstr "warning")]),
             .err "Invalid username or password")
          | some usr =>
            if usr.password ≠ p' then
              (emitAudit s1 now EventJs.LOGIN_FAILURE
                "Login failed: Incorrect password"
                (objLit am' [("reason", .vstr "incorrect_password"),
                             ("severity", .vstr "warning")]),
               .err "Invalid username or password")
            else
              (emitAudit s1 now EventJs.LOGIN_SUCCESS
                "User logged in successfully"
                [("username", .vstr usr.username), ("role", .vstr usr.role),
                 ("severity", .vstr "info"), ("source", .vstr "login")],
               .ok usr.username usr.role "Login successful")
    | _ =>
      (emitAudit s now EventJs.LOGIN_FAILURE "Login failed: Invalid password type"
        (objLit am [("reason", .vstr "invalid_password_type")]),
       .err "Password is required and must be a string")
  | _ =>
    (emitAudit s now EventJs.LOGIN_FAILURE "Login failed: Invalid username type"
      (objLit am [("reason", .vstr "invalid_username_type")]),
     .err "Username is required and must be a string")

end LoginAudit

/-- The `"a".repeat(256)` username of the claim. -/
def longName : String := String.mk (List.replicate 256 'a')

/-- 255 characters plus one trailing blank: 256 characters before
trimming, 255 after; used to show the length limit is checked before
trimming. -/
def longNamePadded : String := String.mk (List.replicate 255 'a' ++ [' '])

namespace OrderMgmt

/-! Embedding of the order management module (`src/unnamed/part_003`),
layered on `src/event.js`. -/

/-- Result of `updateOrderStatus`. -/
inductive UpdateResult where
  | ok (order : EventRec) (message : String)
  | err (error : String)
deriving DecidableEq

def validStatuses : List String :=
  ["pending", "processing", "fulfilled", "cancelled"]

/-- `updateOrderStatus(orderId, newStatus, additionalData)`; `none` for
`additionalData` is the `{}` default, allocated fresh at call time. -/
def updateOrderStatus (s : EState) (now : Int) (orderId newStatus : JVal)
    (additionalData : Option JVal) : EState × UpdateResult :=
  match orderId with
  | .vstr oid =>
    if (jsTrim oid).data.isEmpty then
      (s, .err "orderId must be a non-empty string")
    else
      match newStatus with
      | .vstr st =>
        if st ∈ validStatuses then
          let p := match additionalData with
                   | none => allocObj s.heap []
                   | some v => (s.heap, v)
          match metaFields p.1 p.2 with
          | none => (s, .err "additionalData must be an object")
          | some adFields =>
            let metaList := objLit
              [("order_id", .vstr (jsTrim oid)), ("new_status", .vstr st),
               ("updated_at", .vnum now)] adFields
            let q := allocObj p.1 metaList
            let r := EventJs.createEvent ⟨q.1, s.events, s.eventIdCounter⟩ now
              (.vstr "order_updated")
              (.vstr ("Order status updated: " ++ (jsTrim oid ++ (" -> " ++ st))))
              q.2
            match r.2 with
            | .ok ev _ => (r.1, .ok ev "Order status updated successfully")
            | .err e => (r.1, .err e)
        else
          (s, .err ("newStatus must be one of: " ++
            String.intercalate ", " validStatuses))
      | _ =>
        (s, .err ("newStatus must be one of: " ++
          String.intercalate ", " validStatuses))
  | _ => (s, .err "orderId must be a non-empty string")

end OrderMgmt

/-- The JS values stored directly inside an object. -/
def JObj.vals : JObj → List JVal
  | .obj fs => fs.map Prod.snd
  | .arr es => es

/-- One step in the object graph: the object at `a` directly references
`b`. -/
def Step (h : Heap) (a b : Nat) : Prop :=
  ∃ o, heapGet h a = some o ∧ JVal.vref b ∈ o.vals

/-- `b` is reachable from address `a` (reflexively) through references. -/
def ReachA (h : Heap) (a b : Nat) : Prop :=
  Relation.ReflTransGen (Step h) a b

/-- Address `b` is reachable from value `v`. -/
def ReachV (h : Heap) (v : JVal) (b : Nat) : Prop :=
  ∃ a, v = JVal.vref a ∧ ReachA h a b

mutual
/-- A JSON tree free of the transient `jundef` marker (what `JSON.parse`
can actually receive). -/
def noUndef : Json → Bool
  | .jnull => true
  | .jundef => false
  | .jbool _ => true
  | .jnum _ => true
  | .jstr _ => true
  | .jobj fs => noUndefFs fs
  | .jarr es => noUndefEs es

def noUndefFs : List (String × Json) → Bool
  | [] => true
  | (_, j) :: rest => noUndef j && noUndefFs rest

def noUndefEs : List Json → Bool
  | [] => true
  | j :: rest => noUndef j && noUndefEs rest
end

mutual
/-- Nesting depth of object/array nodes in a JSON tree. -/
def jdepth : Json → Nat
  | .jobj fs => jdepthFs fs + 1
  | .jarr es => jdepthEs es + 1
  | _ => 0

def jdepthFs : List (String × Json) → Nat
  | [] => 0
  | (_, j) :: rest => max (jdepth j) (jdepthFs rest)

def jdepthEs : List Json → Nat
  | [] => 0
  | j :: rest => max (jdepth j) (jdepthEs rest)
end

namespace EventDeep

/-! Embedding of the deep-copy event module (`src/unnamed/part_001`):
`createEvent` deep-clones the metadata via
`JSON.parse(JSON.stringify(metadata))`, stores the clone, and returns a
further deep clone of the stored event.  The scalar fields (`id`, `type`,
`message`, `timestamp`) of the event are strings/numbers, which
`JSON.parse(JSON.stringify(event))` reproduces verbatim; only `metadata`
holds references, so the event clone is modelled by re-serializing the
stored metadata. -/

/-- `createEvent(type, message, metadata)` of the deep-copy module.  Note
that the `events.push(event)` happens before the return-value clone, so
the `'Failed to serialize event data'` branch (were it reachable) would
leave the event stored. -/
def createEvent (s : EState) (now : Int) (type message metadata : JVal) :
    EState × CreateResult :=
  match asNonEmptyString type with
  | none => (s, .err "Event type is required and must be a non-empty string")
  | some t =>
    match asNonEmptyString message with
    | none => (s, .err "Event message is required and must be a non-empty string")
    | some m =>
      match metaFields s.heap metadata with
      | none => (s, .err "Metadata must be an object")
      | some _ =>
        match serialize s.heap metadata with
        | .error _ =>
          (s, .err "Metadata contains non-serializable data (e.g., circular references, functions)")
        | .ok j =>
          let p := unparse s.heap j
          let ev : EventRec := ⟨s.eventIdCounter, t, m, p.2, now⟩
          match serialize p.1 p.2 with
          | .error _ =>
            (⟨p.1, s.events ++ [ev], s.eventIdCounter + 1⟩,
             .err "Failed to serialize event data")
          | .ok j2 =>
            let q := unparse p.1 j2
            (⟨q.1, s.events ++ [ev], s.eventIdCounter + 1⟩,
             .ok ⟨ev.id, ev.type, ev.message, q.2, ev.timestamp⟩
               "Event created successfully")

/-- Clone a list of stored events for returning to the caller
(`JSON.parse(JSON.stringify(filteredEvents))`). -/
def cloneEvents (h : Heap) : List EventRec →
    Except String (Heap × List EventRec)
  | [] => .ok (h, [])
  | e :: rest =>
    match serialize h e.metadata with
    | .error _ => .error "Failed to serialize events data"
    | .ok j =>
      let p := unparse h j
      match cloneEvents p.1 rest with
      | .error msg => .error msg
      | .ok (h2, l) =>
        .ok (h2, ⟨e.id, e.type, e.message, p.2, e.timestamp⟩ :: l)

/-- `getEvents(type)` of the deep-copy module: filter, then deep-clone the
result. -/
def getEvents (s : EState) (type : Option JVal) : EState × QueryResult :=
  match type with
  | none =>
    match cloneEvents s.heap s.events with
    | .error msg => (s, .err msg)
    | .ok (h2, l) =>
      (⟨h2, s.events, s.eventIdCounter⟩, .ok l s.events.length)
  | some tv =>
    match asNonEmptyString tv with
    | none => (s, .err "Event type must be a non-empty string when provided")
    | some t =>
      let fl := s.events.filter (fun e => e.type == t)
      match cloneEvents s.heap fl with
      | .error msg => (s, .err msg)
      | .ok (h2, l) =>
        (⟨h2, s.events, s.eventIdCounter⟩, .ok l fl.length)

/-- `getEventById(id)` of the deep-copy module: find, then deep-clone. -/
def getEventById (s : EState) (id : JVal) : EState × ByIdResult :=
  match id with
  | .vnum n =>
    if n ≤ 0 then (s, .err "Event ID must be a positive integer")
    else
      match s.events.find? (fun e => (e.id : Int) == n) with
      | none => (s, .err ("Event with ID " ++ toString n ++ " not found"))
      | some e =>
        match serialize s.heap e.metadata with
        | .error _ => (s, .err "Failed to serialize event data")
        | .ok j =>
          let p := unparse s.heap j
          (⟨p.1, s.events, s.eventIdCounter⟩,
           .ok ⟨e.id, e.type, e.message, p.2, e.timestamp⟩)
  | _ => (s, .err "Event ID must be a positive integer")

/-- `clearEvents()` of the deep-copy module. -/
def clearEvents (s : EState) : EState × ClearResult :=
  (⟨s.heap, [], 1⟩,
   .ok ("Cleared " ++ toString s.events.length ++ " event(s)") s.events.length)

end EventDeep

/-- Addresses the caller can reach from the references it holds. -/
def CallerHolds (h : Heap) (roots : List JVal) (b : Nat) : Prop :=
  ∃ r ∈ roots, ReachV h r b

/-- A value the caller can construct: any reference in it is one the
caller holds. -/
def ValHeld (h : Heap) (roots : List JVal) (v : JVal) : Prop :=
  ∀ a, v = .vref a → CallerHolds h roots a

/-- One caller-side action against the deep-copy event module: mutate a
field of an object the caller holds, or call one of the module's
operations. -/
inductive Act where
  | mutate (a : Nat) (k : String) (v : JVal)
  | create (now : Int) (ty msg md : JVal)
  | query (filt : Option JVal)
  | byId (idv : JVal)
  | clear

/-- An action the caller can actually perform: it can only mutate objects
it holds, write values built from references it holds, and pass such
values as metadata. -/
def Legal (s : EState) (roots : List JVal) : Act → Prop
  | .mutate a _ v => CallerHolds s.heap roots a ∧ ValHeld s.heap roots v
  | .create _ _ _ md => ValHeld s.heap roots md
  | .query _ => True
  | .byId _ => True
  | .clear => True

/-- Execute one action against the deep-copy module, tracking the roots
the caller accumulates from return values. -/
def stepDeep (s : EState) (roots : List JVal) : Act → EState × List JVal
  | .mutate a k v =>
    (⟨setField s.heap a k v, s.events, s.eventIdCounter⟩, roots)
  | .create now ty msg md =>
    let p := EventDeep.createEvent s now ty msg md
    (p.1, match p.2 with
          | .ok ev _ => ev.metadata :: md :: roots
          | .err _ => md :: roots)
  | .query f =>
    let p := EventDeep.getEvents s f
    (p.1, match p.2 with
          | .ok l _ => l.map EventRec.metadata ++ roots
          | .err _ => roots)
  | .byId i =>
    let p := EventDeep.getEventById s i
    (p.1, match p.2 with
          | .ok e => e.metadata :: roots
          | .err _ => roots)
  | .clear => ((EventDeep.clearEvents s).1, roots)

/-- The separation invariant: every stored event's metadata lives inside
the heap and is unreachable from anything the caller holds, and the
caller's region is inside the heap. -/
def StoredOK (s : EState) (roots : List JVal) : Prop :=
  (∀ e ∈ s.events, ∀ b, ReachV s.heap e.metadata b →
    b < s.heap.length ∧ ¬CallerHolds s.heap roots b) ∧
  (∀ b, CallerHolds s.heap roots b → b < s.heap.length)

/-- The caller's object graph for the C2 counterexample: address 0 holds
`{x: 1}`; address 1 holds the metadata argument `{inner: <ref 0>}`. -/
def c2Heap : Heap := [.obj [("x", .vnum 1)], .obj [("inner", .vref 0)]]

def c2S0 : EState := ⟨c2Heap, [], 1⟩

/-- The store right after `createEvent(..., {inner: {x: 1}})` against
`src/event.js`: the shallow copy `{ ...metadata }` lives at address 2 but
still references the caller's object 0. -/
def c2S1 : EState :=
  (EventJs.createEvent c2S0 5 (.vstr "t") (.vstr "m") (.vref 1)).1

/-- The heap after the caller mutates its own nested object
(`m.inner.x = 2`) after the `createEvent` call returned. -/
def c2Mut : Heap := setField c2S1.heap 0 "x" (.vnum 2)

def c2WitState : EState := ⟨[JObj.obj []], [], 1⟩

def c2WitRoots : List JVal := [.vref 0]

def c2WitAct : Act := .create 5 (.vstr "t") (.vstr "m") (.vref 0)

/-- Address `a` lies on a reference cycle in heap `h`. -/
def OnCycle (h : Heap) (a : Nat) : Prop :=
  ∃ b, Step h a b ∧ ReachA h b a

/-- Value `v` contains a true cyclic reference: some address reachable from
`v` lies on a cycle. -/
def HasCycle (h : Heap) (v : JVal) : Prop :=
  ∃ c, ReachV h v c ∧ OnCycle h c

/-- A one-object heap whose object references itself: `m = {}; m.self = m`. -/
def c3Heap : Heap := [.obj [("self", .vref 0)]]

def c3S0 : EState := ⟨c3Heap, [], 1⟩

/-- JS property read on a field list (`undefined` for missing keys). -/
def lookupF (fs : List (String × JVal)) (k : String) : JVal :=
  match fs.lookup k with
  | some x => x
  | none => JVal.vundef

/-- The audit-metadata enrichment performed by `createAuditEvent`:
`{ ...metadata, severity: metadata.severity || 'info',
source: metadata.source || 'system', auditTimestamp: ... }`. -/
def audEnrich (fs : List (String × JVal)) (now : Int) :
    List (String × JVal) :=
  objLit fs
    [("severity", if truthy (lookupF fs "severity") then lookupF fs "severity"
                  else .vstr "info"),
     ("source", if truthy (lookupF fs "source") then lookupF fs "source"
                else .vstr "system"),
     ("auditTimestamp", .vnum now)]

def c4S0 : EState := ⟨[], [], 1⟩

theorem createEvent_ok_shape (s : EState) (now : Int) (ty m md : JVal)
    (ev : EventRec) (msg : String)
    (hres : (EventJs.createEvent s now ty m md).2 = .ok ev msg) :
    ev.id = s.eventIdCounter ∧
    (EventJs.createEvent s now ty m md).1.eventIdCounter = s.eventIdCounter + 1 ∧
    (EventJs.createEvent s now ty m md).1.events = s.events ++ [ev] := by
  unfold EventJs.createEvent at hres ⊢
  split at hres
  · cases hres
  · split at hres
    · cases hres
    · split at hres
      · cases hres
      · cases hres
        exact ⟨rfl, rfl, rfl⟩

theorem createEvent_err_state (s : EState) (now : Int) (ty m md : JVal)
    (msg : String)
    (hres : (EventJs.createEvent s now ty m md).2 = .err msg) :
    (EventJs.createEvent s now ty m md).1 = s := by
  unfold EventJs.createEvent at hres ⊢
  split at hres
  · rfl
  · split at hres
    · rfl
    · split at hres
      · rfl
      · cases hres

theorem runCreates_ids (calls : List CreateCall) : ∀ (s : EState),
    ((runCreates s calls).2.all CreateResult.isOk) = true →
    ((runCreates s calls).2.map CreateResult.okId) =
      List.range' s.eventIdCounter calls.length := by
  induction calls with
  | nil => intro s _; simp [runCreates]
  | cons c rest ih =>
    intro s hok
    rw [runCreates] at hok ⊢
    simp only [List.all_cons, Bool.and_eq_true] at hok
    obtain ⟨hhead, htail⟩ := hok
    match hr : (EventJs.createEvent s c.now c.type c.message c.metadata).2 with
    | .err e => rw [hr] at hhead; cases hhead
    | .ok ev msg =>
      obtain ⟨hid, hctr, _⟩ := createEvent_ok_shape s c.now c.type c.message c.metadata ev msg hr
      have := ih (EventJs.createEvent s c.now c.type c.message c.metadata).1 htail
      simp only [List.map_cons, hr, CreateResult.okId, hid, this, hctr]
      rw [List.length_cons, List.range'_succ]

/-- Claim C1: starting from an empty store, every sequence of successful
`createEvent` calls (no intervening clear) returns ids exactly `1..N` in
call order; `clearEvents` empties the sequence, resets the counter so the
next successful create returns id 1, and reports the number removed. -/
theorem c1_monotonic_ids_and_clear :
    (∀ (h : Heap) (calls : List CreateCall),
      ((runCreates ⟨h, [], 1⟩ calls).2.all CreateResult.isOk) = true →
      ((runCreates ⟨h, [], 1⟩ calls).2.map CreateResult.okId) =
        List.range' 1 calls.length) ∧
    (∀ s : EState,
      (EventJs.clearEvents s).2 =
        .ok ("Cleared " ++ toString s.events.length ++ " event(s)")
          s.events.length ∧
      (EventJs.clearEvents s).1.events = [] ∧
      (EventJs.clearEvents s).1.eventIdCounter = 1 ∧
      (EventJs.clearEvents s).1.heap = s.heap) ∧
    (∀ (s : EState) (c : CreateCall) (ev : EventRec) (msg : String),
      (EventJs.createEvent (EventJs.clearEvents s).1
          c.now c.type c.message c.metadata).2 = .ok ev msg →
      ev.id = 1) := by
  refine ⟨fun h calls hok => runCreates_ids calls ⟨h, [], 1⟩ hok,
          fun s => ⟨rfl, rfl, rfl, rfl⟩,
          fun s c ev msg hres => ?_⟩
  exact (createEvent_ok_shape _ c.now c.type c.message c.metadata ev msg hres).1

/-- Witness for C1 at a concrete input: two successful creates from an
empty store return ids `[1, 2]`, and a create right after a clear returns
id 1. -/
theorem c1_monotonic_ids_and_clear_witness :
    ((runCreates ⟨[JObj.obj []], [], 1⟩
        [⟨5, .vstr "t", .vstr "m", .vref 0⟩,
         ⟨6, .vstr "u", .vstr "m2", .vref 0⟩]).2.map CreateResult.okId)
      = [1, 2] ∧
    (∀ (ev : EventRec) (msg : String),
      (EventJs.createEvent
          (EventJs.clearEvents ⟨[JObj.obj []],
            [⟨7, "x", "y", .vnull, 0⟩], 8⟩).1
          5 (.vstr "t") (.vstr "m") (.vref 0)).2 = .ok ev msg →
      ev.id = 1) := by
  constructor
  · exact c1_monotonic_ids_and_clear.1 [JObj.obj []]
      [⟨5, .vstr "t", .vstr "m", .vref 0⟩, ⟨6, .vstr "u", .vstr "m2", .vref 0⟩]
      (by decide)
  · intro ev msg hres
    exact c1_monotonic_ids_and_clear.2.2
      ⟨[JObj.obj []], [⟨7, "x", "y", .vnull, 0⟩], 8⟩
      ⟨5, .vstr "t", .vstr "m", .vref 0⟩ ev msg hres

/-- Claim C5: for every filter string `t`, `getEvents(t)` returns exactly
the stored events of type `t.trim()` in insertion order and
`getEventCount(t)` their number; a non-string or trim-empty filter fails
with a validation error for both. -/
theorem c5_filter_correctness :
    (∀ (s : EState) (t : String), (jsTrim t).data.isEmpty = false →
      ∃ l, EventJs.getEvents s (some (.vstr t)) = .ok l l.length ∧
        l.Sublist s.events ∧
        (∀ e : EventRec, e ∈ l ↔ e ∈ s.events ∧ e.type = jsTrim t) ∧
        EventJs.getEventCount s (some (.vstr t)) =
          .ok l.length (some (jsTrim t))) ∧
    (∀ (s : EState) (t : String), (jsTrim t).data.isEmpty = true →
      EventJs.getEvents s (some (.vstr t)) =
        .err "Event type must be a non-empty string when provided" ∧
      EventJs.getEventCount s (some (.vstr t)) =
        .err "Event type must be a non-empty string when provided") ∧
    (∀ (s : EState) (v : JVal), (∀ str, v ≠ .vstr str) →
      EventJs.getEvents s (some v) =
        .err "Event type must be a non-empty string when provided" ∧
      EventJs.getEventCount s (some v) =
        .err "Event type must be a non-empty string when provided") := by
  refine ⟨fun s t ht => ?_, fun s t ht => ?_, fun s v hv => ?_⟩
  · refine ⟨s.events.filter (fun e => e.type == jsTrim t), ?_, List.filter_sublist _, ?_, ?_⟩
    · simp [EventJs.getEvents, asNonEmptyString, ht]
    · intro e
      simp [List.mem_filter]
    · simp [EventJs.getEventCount, asNonEmptyString, ht]
  · constructor <;>
      simp [EventJs.getEvents, EventJs.getEventCount, asNonEmptyString, ht]
  · have hnone : asNonEmptyString v = none := by
      cases v <;> first
      | rfl
      | exact absurd rfl (hv _)
    constructor <;>
      simp [EventJs.getEvents, EventJs.getEventCount, hnone]

/-- Witness for C5 at a concrete input: filter `" a "` on `sampleState`. -/
theorem c5_filter_correctness_witness :
    (jsTrim " a ").data.isEmpty = false ∧
    (∃ l, EventJs.getEvents sampleState (some (.vstr " a ")) = .ok l l.length ∧
      l.Sublist sampleState.events ∧
      (∀ e : EventRec, e ∈ l ↔ e ∈ sampleState.events ∧ e.type = jsTrim " a ") ∧
      EventJs.getEventCount sampleState (some (.vstr " a ")) =
        .ok l.length (some (jsTrim " a "))) :=
  ⟨by decide, c5_filter_correctness.1 sampleState " a " (by decide)⟩

/-- Claim C6: `getAuditEvents()` with no argument returns exactly the
stored events whose type starts with `"audit."`; with a non-empty filter it
returns exactly the events of the trimmed type, audit-prefixed or not. -/
theorem c6_audit_prefix_asymmetry :
    (∀ s : EState, ∃ l,
      EventJs.getAuditEvents s none = .ok l l.length ∧
      l.Sublist s.events ∧
      (∀ e : EventRec, e ∈ l ↔ e ∈ s.events ∧
        jsStartsWith e.type "audit." = true)) ∧
    (∀ (s : EState) (t : String), (jsTrim t).data.isEmpty = false →
      ∃ l, EventJs.getAuditEvents s (some (.vstr t)) = .ok l l.length ∧
        l.Sublist s.events ∧
        (∀ e : EventRec, e ∈ l ↔ e ∈ s.events ∧ e.type = jsTrim t)) := by
  constructor
  · intro s
    refine ⟨s.events.filter (fun e => jsStartsWith e.type "audit."), rfl,
      List.filter_sublist _, ?_⟩
    intro e
    simp [List.mem_filter]
  · intro s t ht
    refine ⟨s.events.filter (fun e => e.type == jsTrim t), ?_,
      List.filter_sublist _, ?_⟩
    · simp [EventJs.getAuditEvents, asNonEmptyString, ht]
    · intro e
      simp [List.mem_filter]

/-- Witness for C6 at a concrete input: unfiltered call on `sampleState`
(which also holds non-audit events), and filter `"a"` (a non-prefixed
type). -/
theorem c6_audit_prefix_asymmetry_witness :
    (∃ l, EventJs.getAuditEvents sampleState none = .ok l l.length ∧
      l.Sublist sampleState.events ∧
      (∀ e : EventRec, e ∈ l ↔ e ∈ sampleState.events ∧
        jsStartsWith e.type "audit." = true)) ∧
    ((jsTrim "a").data.isEmpty = false ∧
     (∃ l, EventJs.getAuditEvents sampleState (some (.vstr "a")) =
        .ok l l.length ∧ l.Sublist sampleState.events ∧
      (∀ e : EventRec, e ∈ l ↔ e ∈ sampleState.events ∧ e.type = jsTrim "a"))) :=
  ⟨c6_audit_prefix_asymmetry.1 sampleState,
   by decide,
   c6_audit_prefix_asymmetry.2 sampleState "a" (by decide)⟩

/-- Claim C7: `getAuditEventsByTimeRange` fails with a validation error
whenever a bound fails to parse or start > end (regardless of the store);
on success it returns exactly the audit-prefixed events with timestamp in
the inclusive range, together with the normalized bounds. -/
theorem c7_time_range_boundary :
    (∀ (s : EState) (t1 t2 : Int), t1 > t2 →
      EventJs.getAuditEventsByTimeRange s (.valid t1) (.valid t2) =
        .err "Start time must be before end time") ∧
    (∀ (s : EState) (d : DateInput),
      EventJs.getAuditEventsByTimeRange s .invalid d =
        .err "Invalid time range provided" ∧
      EventJs.getAuditEventsByTimeRange s d .invalid =
        .err "Invalid time range provided") ∧
    (∀ (s : EState) (t1 t2 : Int), t1 ≤ t2 →
      ∃ l, EventJs.getAuditEventsByTimeRange s (.valid t1) (.valid t2) =
          .ok l l.length t1 t2 ∧
        (∀ e : EventRec, e ∈ l ↔ e ∈ s.events ∧
          jsStartsWith e.type "audit." = true ∧
          t1 ≤ e.timestamp ∧ e.timestamp ≤ t2)) := by
  refine ⟨fun s t1 t2 hgt => ?_, fun s d => ⟨rfl, ?_⟩, fun s t1 t2 hle => ?_⟩
  · simp [EventJs.getAuditEventsByTimeRange, parseDate, hgt]
  · cases d <;> rfl
  · refine ⟨(s.events.filter (fun e => jsStartsWith e.type "audit.")).filter
      (fun e => decide (t1 ≤ e.timestamp) && decide (e.timestamp ≤ t2)), ?_, ?_⟩
    · simp [EventJs.getAuditEventsByTimeRange, parseDate, not_lt.mpr hle]
    · intro e
      simp only [List.mem_filter, Bool.and_eq_true, decide_eq_true_eq]
      tauto

/-- Witness for C7 at a concrete input: range `[10, 20]` on `sampleState`
(whose audit event has timestamp exactly 20, the end bound). -/
theorem c7_time_range_boundary_witness :
    ((10 : Int) ≤ 20) ∧
    (∃ l, EventJs.getAuditEventsByTimeRange sampleState
        (.valid 10) (.valid 20) = .ok l l.length 10 20 ∧
      (∀ e : EventRec, e ∈ l ↔ e ∈ sampleState.events ∧
        jsStartsWith e.type "audit." = true ∧
        10 ≤ e.timestamp ∧ e.timestamp ≤ 20)) :=
  ⟨by decide, c7_time_range_boundary.2.2 sampleState 10 20 (by decide)⟩

/-- Claim C8: login is deterministic on the fixed user list, for both the
plain (`src/login.js`) and the audit-logging login variant:
`("admin","admin123")` succeeds as administrator, `("admin","wrong")`,
`("", "x")`, a 256-character username (even one that trims to 255
characters, showing the limit is checked before trimming) and
`("bad!name","x")` fail with the respective errors. -/
theorem c8_login_determinism :
    (LoginJs.login (.vstr "admin") (.vstr "admin123") =
        .ok "admin" "administrator" "Login successful" ∧
      LoginJs.login (.vstr "admin") (.vstr "wrong") =
        .err "Invalid username or password" ∧
      LoginJs.login (.vstr "") (.vstr "x") =
        .err "Username cannot be empty" ∧
      LoginJs.login (.vstr longName) (.vstr "x") =
        .err "Username is too long (maximum 255 characters)" ∧
      LoginJs.login (.vstr longNamePadded) (.vstr "x") =
        .err "Username is too long (maximum 255 characters)" ∧
      LoginJs.login (.vstr "bad!name") (.vstr "x") =
        .err "Username contains invalid characters (only letters, numbers, dots, hyphens, and underscores allowed)") ∧
    (∀ (s : EState) (now : Int),
      (LoginAudit.login s now (.vstr "admin") (.vstr "admin123")).2 =
        .ok "admin" "administrator" "Login successful" ∧
      (LoginAudit.login s now (.vstr "admin") (.vstr "wrong")).2 =
        .err "Invalid username or password" ∧
      (LoginAudit.login s now (.vstr "") (.vstr "x")).2 =
        .err "Username cannot be empty" ∧
      (LoginAudit.login s now (.vstr longName) (.vstr "x")).2 =
        .err "Username is too long (maximum 255 characters)" ∧
      (LoginAudit.login s now (.vstr longNamePadded) (.vstr "x")).2 =
        .err "Username is too long (maximum 255 characters)" ∧
      (LoginAudit.login s now (.vstr "bad!name") (.vstr "x")).2 =
        .err "Username contains invalid characters (only letters, numbers, dots, hyphens, and underscores allowed)") :=
  ⟨⟨by decide, by decide, by decide, by decide, by decide, by decide⟩,
   fun s now => ⟨rfl, rfl, rfl, rfl, rfl, rfl⟩⟩

theorem heapGet_append_len (h : Heap) (o : JObj) :
    heapGet (h ++ [o]) h.length = some o := by
  simp [heapGet, List.get?_eq_getElem?, List.getElem?_concat_length]

theorem heapGet_append_two (h : Heap) (o1 o2 : JObj) :
    heapGet (h ++ [o1, o2]) (h.length + 1) = some o2 := by
  have hsplit : h ++ [o1, o2] = (h ++ [o1]) ++ [o2] := by simp
  rw [hsplit]
  simpa using heapGet_append_len (h ++ [o1]) o2

/-- A string whose first character is not whitespace passes the
`trim().length > 0` check. -/
theorem asNonEmptyString_of_head (pre rest : String) (c : Char) (l : List Char)
    (hpre : pre.data = c :: l) (hc : wsp c = false) :
    asNonEmptyString (.vstr (pre ++ rest)) = some (jsTrim (pre ++ rest)) := by
  have hdata : (pre ++ rest).data = c :: (l ++ rest.data) := by
    rw [String.data_append, hpre]
    rfl
  have hne : (jsTrim (pre ++ rest)).data.isEmpty = false := by
    simp only [jsTrim, hdata]
    rw [List.dropWhile_cons_of_neg (by simp [hc])]
    rw [List.isEmpty_eq_false, Ne, List.reverse_eq_nil_iff,
      List.dropWhile_eq_nil_iff]
    intro hall
    have := hall c (by simp)
    simp [hc] at this
  simp [asNonEmptyString, hne]

/-- Claim C9: for every non-empty order id and valid status,
`updateOrderStatus` succeeds and appends an `order_updated` event even when
no `order_created` event for that id exists in the store (no referential
integrity is checked). -/
theorem c9_update_without_create (s : EState) (now : Int) (oid st : String)
    (hoid : (jsTrim oid).data.isEmpty = false)
    (hst : st ∈ OrderMgmt.validStatuses)
    (hnoCreate : ∀ e ∈ s.events, ¬(e.type = "order_created" ∧
      getField s.heap e.metadata "order_id" = .vstr (jsTrim oid))) :
    ∃ ev : EventRec,
      (OrderMgmt.updateOrderStatus s now (.vstr oid) (.vstr st) none).2 =
        .ok ev "Order status updated successfully" ∧
      (OrderMgmt.updateOrderStatus s now (.vstr oid) (.vstr st) none).1.events =
        s.events ++ [ev] ∧
      ev.type = "order_updated" ∧ ev.id = s.eventIdCounter := by
  clear hnoCreate
  simp only [OrderMgmt.updateOrderStatus, hoid, Bool.false_eq_true, if_false,
    hst, if_true]
  rw [show metaFields (allocObj s.heap []).1 (allocObj s.heap []).2 = some [] from
    by simp [allocObj, metaFields, heapGet_append_len]]
  simp only [EventJs.createEvent]
  rw [show asNonEmptyString (.vstr "order_updated") = some "order_updated" from
    by decide]
  rw [asNonEmptyString_of_head "Order status updated: " _ 'O'
    "rder status updated: ".data (by decide) (by decide)]
  rw [show metaFields (allocObj (allocObj s.heap []).1
      (objLit [("order_id", .vstr (jsTrim oid)), ("new_status", .vstr st),
        ("updated_at", .vnum now)] [])).1
      (allocObj (allocObj s.heap []).1
      (objLit [("order_id", .vstr (jsTrim oid)), ("new_status", .vstr st),
        ("updated_at", .vnum now)] [])).2 =
      some (objLit [("order_id", .vstr (jsTrim oid)), ("new_status", .vstr st),
        ("updated_at", .vnum now)] []) from
    by simp [allocObj, metaFields, heapGet_append_two]]
  exact ⟨_, rfl, rfl, rfl, rfl⟩

/-- Witness for C9 at a concrete input: updating order `"X"` to
`"fulfilled"` on `sampleState`, which holds no `order_created` event. -/
theorem c9_update_without_create_witness :
    ((jsTrim "X").data.isEmpty = false ∧
      "fulfilled" ∈ OrderMgmt.validStatuses ∧
      (∀ e ∈ sampleState.events, ¬(e.type = "order_created" ∧
        getField sampleState.heap e.metadata "order_id" = .vstr (jsTrim "X")))) ∧
    (∃ ev : EventRec,
      (OrderMgmt.updateOrderStatus sampleState 99 (.vstr "X")
          (.vstr "fulfilled") none).2 =
        .ok ev "Order status updated successfully" ∧
      (OrderMgmt.updateOrderStatus sampleState 99 (.vstr "X")
          (.vstr "fulfilled") none).1.events =
        sampleState.events ++ [ev] ∧
      ev.type = "order_updated" ∧ ev.id = sampleState.eventIdCounter) :=
  ⟨⟨by decide, by decide, by decide⟩,
   c9_update_without_create sampleState 99 "X" "fulfilled"
     (by decide) (by decide) (by decide)⟩

theorem reachV_refl (a : Nat) (h : Heap) : ReachV h (.vref a) a :=
  ⟨a, rfl, Relation.ReflTransGen.refl⟩

theorem reachV_head (h : Heap) (a b : Nat) (o : JObj)
    (ho : heapGet h a = some o) (v : JVal) (hv : v ∈ o.vals)
    (hreach : ReachV h v b) : ReachV h (.vref a) b := by
  obtain ⟨c, rfl, hcb⟩ := hreach
  exact ⟨a, rfl, Relation.ReflTransGen.head ⟨o, ho, hv⟩ hcb⟩

@[simp] theorem serializeV_vnull (h : Heap) (fuel : Nat) (path : List Nat) :
    serializeV h fuel path .vnull = .ok .jnull := by rw [serializeV]

@[simp] theorem serializeV_vundef (h : Heap) (fuel : Nat) (path : List Nat) :
    serializeV h fuel path .vundef = .ok .jundef := by rw [serializeV]

@[simp] theorem serializeV_vbool (h : Heap) (fuel : Nat) (path : List Nat)
    (b : Bool) : serializeV h fuel path (.vbool b) = .ok (.jbool b) := by
  rw [serializeV]

@[simp] theorem serializeV_vnum (h : Heap) (fuel : Nat) (path : List Nat)
    (n : Int) : serializeV h fuel path (.vnum n) = .ok (.jnum n) := by
  rw [serializeV]

@[simp] theorem serializeV_vstr (h : Heap) (fuel : Nat) (path : List Nat)
    (s : String) : serializeV h fuel path (.vstr s) = .ok (.jstr s) := by
  rw [serializeV]

@[simp] theorem serializeV_vfun (h : Heap) (fuel : Nat) (path : List Nat)
    (fid : Nat) : serializeV h fuel path (.vfun fid) = .ok .jundef := by
  rw [serializeV]

theorem serializeV_vref_mem (h : Heap) (fuel : Nat) (path : List Nat)
    (a : Nat) (ha : a ∈ path) :
    serializeV h fuel path (.vref a) = .error .cyc := by
  simp only [serializeV.eq_def]
  rw [if_pos ha]

theorem serializeV_vref_dangling (h : Heap) (fuel : Nat) (path : List Nat)
    (a : Nat) (ha : a ∉ path) (hget : heapGet h a = none) :
    serializeV h fuel path (.vref a) = .ok .jnull := by
  simp only [serializeV.eq_def]
  rw [if_neg ha]
  cases fuel <;> rw [hget]

theorem serializeV_vref_zero (h : Heap) (path : List Nat) (a : Nat)
    (o : JObj) (ha : a ∉ path) (hget : heapGet h a = some o) :
    serializeV h 0 path (.vref a) = .error .fuel := by
  simp only [serializeV.eq_def]
  rw [if_neg ha, hget]

theorem serializeV_vref_obj (h : Heap) (f : Nat) (path : List Nat) (a : Nat)
    (fs : List (String × JVal)) (ha : a ∉ path)
    (hget : heapGet h a = some (.obj fs)) :
    serializeV h (f + 1) path (.vref a) =
      (serializeFs h f (a :: path) fs).map Json.jobj := by
  simp only [serializeV.eq_def]
  rw [if_neg ha, hget]

theorem serializeV_vref_arr (h : Heap) (f : Nat) (path : List Nat) (a : Nat)
    (es : List JVal) (ha : a ∉ path)
    (hget : heapGet h a = some (.arr es)) :
    serializeV h (f + 1) path (.vref a) =
      (serializeEs h f (a :: path) es).map Json.jarr := by
  simp only [serializeV.eq_def]
  rw [if_neg ha, hget]

@[simp] theorem serializeFs_nil (h : Heap) (fuel : Nat) (path : List Nat) :
    serializeFs h fuel path [] = .ok [] := by rw [serializeFs]

theorem serializeFs_cons (h : Heap) (fuel : Nat) (path : List Nat)
    (k : String) (v : JVal) (rest : List (String × JVal)) :
    serializeFs h fuel path ((k, v) :: rest) =
      match serializeV h fuel path v with
      | .error e => .error e
      | .ok jv =>
        match serializeFs h fuel path rest with
        | .error e => .error e
        | .ok jrest => .ok (if jv.isUndef then jrest else (k, jv) :: jrest) := by
  rw [serializeFs]

@[simp] theorem serializeEs_nil (h : Heap) (fuel : Nat) (path : List Nat) :
    serializeEs h fuel path [] = .ok [] := by rw [serializeEs]

theorem serializeEs_cons (h : Heap) (fuel : Nat) (path : List Nat)
    (v : JVal) (rest : List JVal) :
    serializeEs h fuel path (v :: rest) =
      match serializeV h fuel path v with
      | .error e => .error e
      | .ok jv =>
        match serializeEs h fuel path rest with
        | .error e => .error e
        | .ok jrest => .ok ((if jv.isUndef then Json.jnull else jv) :: jrest) := by
  rw [serializeEs]

/-- Serialization only reads addresses reachable from the serialized
value(s): two heaps that agree there serialize identically (joint
statement for values, field lists and element lists). -/
theorem serialize_congr_main (fuel : Nat) :
    (∀ (h h2 : Heap) (path : List Nat) (v : JVal),
      (∀ b, ReachV h v b → heapGet h2 b = heapGet h b) →
      serializeV h2 fuel path v = serializeV h fuel path v) ∧
    (∀ (h h2 : Heap) (path : List Nat) (l : List (String × JVal)),
      (∀ b, (∃ v' ∈ l.map Prod.snd, ReachV h v' b) →
        heapGet h2 b = heapGet h b) →
      serializeFs h2 fuel path l = serializeFs h fuel path l) ∧
    (∀ (h h2 : Heap) (path : List Nat) (l : List JVal),
      (∀ b, (∃ v' ∈ l, ReachV h v' b) → heapGet h2 b = heapGet h b) →
      serializeEs h2 fuel path l = serializeEs h fuel path l) := by
  induction fuel using Nat.strong_induction_on with
  | _ fuel ih =>
  have hV : ∀ (h h2 : Heap) (path : List Nat) (v : JVal),
      (∀ b, ReachV h v b → heapGet h2 b = heapGet h b) →
      serializeV h2 fuel path v = serializeV h fuel path v := by
    intro h h2 path v hag
    match v with
    | .vnull | .vundef | .vbool _ | .vnum _ | .vstr _ | .vfun _ => simp
    | .vref a =>
      by_cases ha : a ∈ path
      · rw [serializeV_vref_mem h2 fuel path a ha,
          serializeV_vref_mem h fuel path a ha]
      · have h2get : heapGet h2 a = heapGet h a := hag a (reachV_refl a h)
        cases hget : heapGet h a with
        | none =>
          rw [hget] at h2get
          rw [serializeV_vref_dangling h2 fuel path a ha h2get,
            serializeV_vref_dangling h fuel path a ha hget]
        | some o =>
          rw [hget] at h2get
          cases fuel with
          | zero =>
            rw [serializeV_vref_zero h2 path a o ha h2get,
              serializeV_vref_zero h path a o ha hget]
          | succ f =>
            cases o with
            | obj fs =>
              have hfs := (ih f (Nat.lt_succ_self f)).2.1 h h2 (a :: path) fs
                (fun b hb => by
                  obtain ⟨v', hv', hr⟩ := hb
                  exact hag b (reachV_head h a b _ hget v' hv' hr))
              rw [serializeV_vref_obj h2 f path a fs ha h2get,
                serializeV_vref_obj h f path a fs ha hget, hfs]
            | arr es =>
              have hes := (ih f (Nat.lt_succ_self f)).2.2 h h2 (a :: path) es
                (fun b hb => by
                  obtain ⟨v', hv', hr⟩ := hb
                  exact hag b (reachV_head h a b _ hget v' hv' hr))
              rw [serializeV_vref_arr h2 f path a es ha h2get,
                serializeV_vref_arr h f path a es ha hget, hes]
  refine ⟨hV, ?_, ?_⟩
  · intro h h2 path l hag
    induction l with
    | nil => simp
    | cons kv rest ihl =>
      obtain ⟨k, v⟩ := kv
      have h1 := hV h h2 path v (fun b hb => hag b ⟨v, by simp, hb⟩)
      have h2r := ihl (fun b hb => hag b (by
        obtain ⟨v', hv', hr⟩ := hb
        exact ⟨v', by simp [hv'], hr⟩))
      rw [serializeFs_cons, serializeFs_cons, h1, h2r]
  · intro h h2 path l hag
    induction l with
    | nil => simp
    | cons v rest ihl =>
      have h1 := hV h h2 path v (fun b hb => hag b ⟨v, by simp, hb⟩)
      have h2r := ihl (fun b hb => hag b (by
        obtain ⟨v', hv', hr⟩ := hb
        exact ⟨v', by simp [hv'], hr⟩))
      rw [serializeEs_cons, serializeEs_cons, h1, h2r]

/-- Convenience form of the locality lemma for single values. -/
theorem serializeV_congr (h h2 : Heap) (fuel : Nat) (path : List Nat)
    (v : JVal) (hag : ∀ b, ReachV h v b → heapGet h2 b = heapGet h b) :
    serializeV h2 fuel path v = serializeV h fuel path v :=
  (serialize_congr_main fuel).1 h h2 path v hag

theorem heapGet_lt_length (h : Heap) (a : Nat) (o : JObj)
    (hget : heapGet h a = some o) : a < h.length := by
  by_contra hcon
  rw [heapGet, List.get?_eq_none.mpr (Nat.le_of_not_lt hcon)] at hget
  cases hget

theorem nodup_bounded_length (path : List Nat) (n : Nat)
    (hnd : path.Nodup) (hb : ∀ b ∈ path, b < n) : path.length ≤ n := by
  have hsub : path.toFinset ⊆ Finset.range n := by
    intro b hbmem
    rw [Finset.mem_range]
    exact hb b (List.mem_toFinset.mp hbmem)
  have := Finset.card_le_card hsub
  rwa [List.toFinset_card_of_nodup hnd, Finset.card_range] at this

/-- With enough fuel relative to the heap size, serialization never fails
for lack of fuel (the cycle check fires first on any cycle). -/
theorem serialize_no_fuel_main (fuel : Nat) :
    (∀ (h : Heap) (path : List Nat) (v : JVal),
      path.Nodup → (∀ b ∈ path, b < h.length) →
      h.length + 1 ≤ fuel + path.length →
      serializeV h fuel path v ≠ .error .fuel) ∧
    (∀ (h : Heap) (path : List Nat) (l : List (String × JVal)),
      path.Nodup → (∀ b ∈ path, b < h.length) →
      h.length + 1 ≤ fuel + path.length →
      serializeFs h fuel path l ≠ .error .fuel) ∧
    (∀ (h : Heap) (path : List Nat) (l : List JVal),
      path.Nodup → (∀ b ∈ path, b < h.length) →
      h.length + 1 ≤ fuel + path.length →
      serializeEs h fuel path l ≠ .error .fuel) := by
  induction fuel using Nat.strong_induction_on with
  | _ fuel ih =>
  have hV : ∀ (h : Heap) (path : List Nat) (v : JVal),
      path.Nodup → (∀ b ∈ path, b < h.length) →
      h.length + 1 ≤ fuel + path.length →
      serializeV h fuel path v ≠ .error .fuel := by
    intro h path v hnd hb hfuel
    match v with
    | .vnull | .vundef | .vbool _ | .vnum _ | .vstr _ | .vfun _ => simp
    | .vref a =>
      by_cases ha : a ∈ path
      · rw [serializeV_vref_mem h fuel path a ha]; intro hcon; cases hcon
      · cases hget : heapGet h a with
        | none =>
          rw [serializeV_vref_dangling h fuel path a ha hget]
          intro hcon; cases hcon
        | some o =>
          cases fuel with
          | zero =>
            exfalso
            have hlen := nodup_bounded_length path h.length hnd hb
            omega
          | succ f =>
            have ha' : a < h.length := heapGet_lt_length h a o hget
            have hnd' : (a :: path).Nodup := List.nodup_cons.mpr ⟨ha, hnd⟩
            have hb' : ∀ b ∈ a :: path, b < h.length := by
              intro b hbmem
              rcases List.mem_cons.mp hbmem with rfl | hbp
              · exact ha'
              · exact hb b hbp
            have hfuel' : h.length + 1 ≤ f + (a :: path).length := by
              simp only [List.length_cons]; omega
            cases o with
            | obj fs =>
              rw [serializeV_vref_obj h f path a fs ha hget]
              cases hfs : serializeFs h f (a :: path) fs with
              | error e =>
                have := (ih f (Nat.lt_succ_self f)).2.1 h (a :: path) fs
                  hnd' hb' hfuel'
                rw [hfs] at this
                simp only [Except.map]
                intro hcon
                cases hcon
                exact this rfl
              | ok jl => simp only [Except.map]; simp
            | arr es =>
              rw [serializeV_vref_arr h f path a es ha hget]
              cases hes : serializeEs h f (a :: path) es with
              | error e =>
                have := (ih f (Nat.lt_succ_self f)).2.2 h (a :: path) es
                  hnd' hb' hfuel'
                rw [hes] at this
                simp only [Except.map]
                intro hcon
                cases hcon
                exact this rfl
              | ok jl => simp only [Except.map]; simp
  refine ⟨hV, ?_, ?_⟩
  · intro h path l hnd hb hfuel
    induction l with
    | nil => simp
    | cons kv rest ihl =>
      obtain ⟨k, v⟩ := kv
      rw [serializeFs_cons]
      cases hv : serializeV h fuel path v with
      | error e =>
        intro hcon
        cases hcon
        exact hV h path v hnd hb hfuel hv
      | ok jv =>
        cases hrest : serializeFs h fuel path rest with
        | error e =>
          intro hcon
          cases hcon
          exact ihl hrest
        | ok jrest => simp
  · intro h path l hnd hb hfuel
    induction l with
    | nil => simp
    | cons v rest ihl =>
      rw [serializeEs_cons]
      cases hv : serializeV h fuel path v with
      | error e =>
        intro hcon
        cases hcon
        exact hV h path v hnd hb hfuel hv
      | ok jv =>
        cases hrest : serializeEs h fuel path rest with
        | error e =>
          intro hcon
          cases hcon
          exact ihl hrest
        | ok jrest => simp

/-- A serialization result other than fuel exhaustion is stable under
increasing the fuel. -/
theorem serialize_fuel_mono_main (fuel : Nat) :
    (∀ (h : Heap) (path : List Nat) (v : JVal) (f2 : Nat)
      (r : Except SErr Json), fuel ≤ f2 → serializeV h fuel path v = r →
      r ≠ .error .fuel → serializeV h f2 path v = r) ∧
    (∀ (h : Heap) (path : List Nat) (l : List (String × JVal)) (f2 : Nat)
      (r : Except SErr (List (String × Json))), fuel ≤ f2 →
      serializeFs h fuel path l = r → r ≠ .error .fuel →
      serializeFs h f2 path l = r) ∧
    (∀ (h : Heap) (path : List Nat) (l : List JVal) (f2 : Nat)
      (r : Except SErr (List Json)), fuel ≤ f2 →
      serializeEs h fuel path l = r → r ≠ .error .fuel →
      serializeEs h f2 path l = r) := by
  induction fuel using Nat.strong_induction_on with
  | _ fuel ih =>
  have hV : ∀ (h : Heap) (path : List Nat) (v : JVal) (f2 : Nat)
      (r : Except SErr Json), fuel ≤ f2 → serializeV h fuel path v = r →
      r ≠ .error .fuel → serializeV h f2 path v = r := by
    intro h path v f2 r hle hr hne
    match v with
    | .vnull | .vundef | .vbool _ | .vnum _ | .vstr _ | .vfun _ =>
      simp at hr ⊢; exact hr
    | .vref a =>
      by_cases ha : a ∈ path
      · rw [serializeV_vref_mem h fuel path a ha] at hr
        rw [serializeV_vref_mem h f2 path a ha]
        exact hr
      · cases hget : heapGet h a with
        | none =>
          rw [serializeV_vref_dangling h fuel path a ha hget] at hr
          rw [serializeV_vref_dangling h f2 path a ha hget]
          exact hr
        | some o =>
          cases fuel with
          | zero =>
            exfalso
            rw [serializeV_vref_zero h path a o ha hget] at hr
            exact hne hr.symm
          | succ f =>
            obtain ⟨g, rfl⟩ : ∃ g, f2 = g + 1 :=
              ⟨f2 - 1, by omega⟩
            have hgf : f ≤ g := by omega
            cases o with
            | obj fs =>
              rw [serializeV_vref_obj h f path a fs ha hget] at hr
              rw [serializeV_vref_obj h g path a fs ha hget]
              cases hfs : serializeFs h f (a :: path) fs with
              | error e =>
                rw [hfs] at hr
                have hefuel : e ≠ .fuel := by
                  intro hcon
                  rw [hcon] at hr
                  exact hne (hr.symm)
                have := (ih f (Nat.lt_succ_self f)).2.1 h (a :: path) fs g
                  (.error e) hgf hfs (by intro hcon; cases hcon; exact hefuel rfl)
                rw [this]
                exact hr
              | ok jl =>
                rw [hfs] at hr
                have := (ih f (Nat.lt_succ_self f)).2.1 h (a :: path) fs g
                  (.ok jl) hgf hfs (by intro hcon; cases hcon)
                rw [this]
                exact hr
            | arr es =>
              rw [serializeV_vref_arr h f path a es ha hget] at hr
              rw [serializeV_vref_arr h g path a es ha hget]
              cases hes : serializeEs h f (a :: path) es with
              | error e =>
                rw [hes] at hr
                have hefuel : e ≠ .fuel := by
                  intro hcon
                  rw [hcon] at hr
                  exact hne (hr.symm)
                have := (ih f (Nat.lt_succ_self f)).2.2 h (a :: path) es g
                  (.error e) hgf hes (by intro hcon; cases hcon; exact hefuel rfl)
                rw [this]
                exact hr
              | ok jl =>
                rw [hes] at hr
                have := (ih f (Nat.lt_succ_self f)).2.2 h (a :: path) es g
                  (.ok jl) hgf hes (by intro hcon; cases hcon)
                rw [this]
                exact hr
  refine ⟨hV, ?_, ?_⟩
  · intro h path l f2 r hle hr hne
    induction l generalizing r with
    | nil => simp at hr ⊢; exact hr
    | cons kv rest ihl =>
      obtain ⟨k, v⟩ := kv
      rw [serializeFs_cons] at hr
      rw [serializeFs_cons]
      cases hv : serializeV h fuel path v with
      | error e =>
        rw [hv] at hr
        have hefuel : e ≠ .fuel := by
          intro hcon
          rw [hcon] at hr
          exact hne hr.symm
        rw [hV h path v f2 (.error e) hle hv
          (by intro hcon; cases hcon; exact hefuel rfl)]
        exact hr
      | ok jv =>
        rw [hv] at hr
        rw [hV h path v f2 (.ok jv) hle hv (by intro hcon; cases hcon)]
        cases hrest : serializeFs h fuel path rest with
        | error e =>
          rw [hrest] at hr
          have hefuel : e ≠ .fuel := by
            intro hcon
            rw [hcon] at hr
            exact hne hr.symm
          rw [ihl (.error e) hrest (by intro hcon; cases hcon; exact hefuel rfl)]
          exact hr
        | ok jrest =>
          rw [hrest] at hr
          rw [ihl (.ok jrest) hrest (by intro hcon; cases hcon)]
          exact hr
  · intro h path l f2 r hle hr hne
    induction l generalizing r with
    | nil => simp at hr ⊢; exact hr
    | cons v rest ihl =>
      rw [serializeEs_cons] at hr
      rw [serializeEs_cons]
      cases hv : serializeV h fuel path v with
      | error e =>
        rw [hv] at hr
        have hefuel : e ≠ .fuel := by
          intro hcon
          rw [hcon] at hr
          exact hne hr.symm
        rw [hV h path v f2 (.error e) hle hv
          (by intro hcon; cases hcon; exact hefuel rfl)]
        exact hr
      | ok jv =>
        rw [hv] at hr
        rw [hV h path v f2 (.ok jv) hle hv (by intro hcon; cases hcon)]
        cases hrest : serializeEs h fuel path rest with
        | error e =>
          rw [hrest] at hr
          have hefuel : e ≠ .fuel := by
            intro hcon
            rw [hcon] at hr
            exact hne hr.symm
          rw [ihl (.error e) hrest (by intro hcon; cases hcon; exact hefuel rfl)]
          exact hr
        | ok jrest =>
          rw [hrest] at hr
          rw [ihl (.ok jrest) hrest (by intro hcon; cases hcon)]
          exact hr

/-- Successful serialization yields a tree free of `jundef`, except for the
top-level marker produced by a bare function/undefined value. -/
theorem serialize_ok_noUndef_main (fuel : Nat) :
    (∀ (h : Heap) (path : List Nat) (v : JVal) (j : Json),
      serializeV h fuel path v = .ok j → noUndef j = true ∨ j = .jundef) ∧
    (∀ (h : Heap) (path : List Nat) (l : List (String × JVal))
      (jl : List (String × Json)),
      serializeFs h fuel path l = .ok jl → noUndefFs jl = true) ∧
    (∀ (h : Heap) (path : List Nat) (l : List JVal) (jl : List Json),
      serializeEs h fuel path l = .ok jl → noUndefEs jl = true) := by
  induction fuel using Nat.strong_induction_on with
  | _ fuel ih =>
  have hV : ∀ (h : Heap) (path : List Nat) (v : JVal) (j : Json),
      serializeV h fuel path v = .ok j → noUndef j = true ∨ j = .jundef := by
    intro h path v j hok
    match v with
    | .vnull => simp at hok; subst hok; left; rfl
    | .vundef => simp at hok; subst hok; right; rfl
    | .vbool _ => simp at hok; subst hok; left; rfl
    | .vnum _ => simp at hok; subst hok; left; rfl
    | .vstr _ => simp at hok; subst hok; left; rfl
    | .vfun _ => simp at hok; subst hok; right; rfl
    | .vref a =>
      by_cases ha : a ∈ path
      · rw [serializeV_vref_mem h fuel path a ha] at hok; cases hok
      · cases hget : heapGet h a with
        | none =>
          rw [serializeV_vref_dangling h fuel path a ha hget] at hok
          cases hok; left; rfl
        | some o =>
          cases fuel with
          | zero =>
            rw [serializeV_vref_zero h path a o ha hget] at hok; cases hok
          | succ f =>
            cases o with
            | obj fs =>
              rw [serializeV_vref_obj h f path a fs ha hget] at hok
              cases hfs : serializeFs h f (a :: path) fs with
              | error e => rw [hfs] at hok; cases hok
              | ok jl =>
                rw [hfs] at hok
                simp only [Except.map] at hok
                cases hok
                left
                exact (ih f (Nat.lt_succ_self f)).2.1 h (a :: path) fs jl hfs
            | arr es =>
              rw [serializeV_vref_arr h f path a es ha hget] at hok
              cases hes : serializeEs h f (a :: path) es with
              | error e => rw [hes] at hok; cases hok
              | ok jl =>
                rw [hes] at hok
                simp only [Except.map] at hok
                cases hok
                left
                exact (ih f (Nat.lt_succ_self f)).2.2 h (a :: path) es jl hes
  refine ⟨hV, ?_, ?_⟩
  · intro h path l jl hok
    induction l generalizing jl with
    | nil => simp at hok; subst hok; rfl
    | cons kv rest ihl =>
      obtain ⟨k, v⟩ := kv
      rw [serializeFs_cons] at hok
      cases hv : serializeV h fuel path v with
      | error e => rw [hv] at hok; cases hok
      | ok jv =>
        rw [hv] at hok
        cases hrest : serializeFs h fuel path rest with
        | error e => rw [hrest] at hok; cases hok
        | ok jrest =>
          rw [hrest] at hok
          cases hok
          by_cases hu : jv.isUndef
          · simpa [hu] using ihl jrest hrest
          · have hnu : noUndef jv = true := by
              rcases hV h path v jv hv with hgood | hbad
              · exact hgood
              · exfalso; rw [hbad] at hu; exact hu rfl
            simpa [hu, noUndefFs, hnu] using ihl jrest hrest
  · intro h path l jl hok
    induction l generalizing jl with
    | nil => simp at hok; subst hok; rfl
    | cons v rest ihl =>
      rw [serializeEs_cons] at hok
      cases hv : serializeV h fuel path v with
      | error e => rw [hv] at hok; cases hok
      | ok jv =>
        rw [hv] at hok
        cases hrest : serializeEs h fuel path rest with
        | error e => rw [hrest] at hok; cases hok
        | ok jrest =>
          rw [hrest] at hok
          cases hok
          by_cases hu : jv.isUndef
          · simpa [hu, noUndefEs, noUndef] using ihl jrest hrest
          · have hnu : noUndef jv = true := by
              rcases hV h path v jv hv with hgood | hbad
              · exact hgood
              · exfalso; rw [hbad] at hu; exact hu rfl
            simpa [hu, noUndefEs, hnu] using ihl jrest hrest

/-- Joint induction principle for `Json` and its nested lists. -/
theorem json_mutual_ind (P : Json → Prop) (Pf : List (String × Json) → Prop)
    (Pe : List Json → Prop)
    (hnull : P .jnull) (hundef : P .jundef) (hbool : ∀ b, P (.jbool b))
    (hnum : ∀ n, P (.jnum n)) (hstr : ∀ s, P (.jstr s))
    (hobj : ∀ fs, Pf fs → P (.jobj fs)) (harr : ∀ es, Pe es → P (.jarr es))
    (hnilf : Pf []) (hconsf : ∀ k j rest, P j → Pf rest → Pf ((k, j) :: rest))
    (hnile : Pe []) (hconse : ∀ j rest, P j → Pe rest → Pe (j :: rest)) :
    (∀ j, P j) ∧ (∀ l, Pf l) ∧ (∀ l, Pe l) := by
  have key : ∀ n : Nat,
      (∀ j : Json, sizeOf j ≤ n → P j) ∧
      (∀ l : List (String × Json), sizeOf l ≤ n → Pf l) ∧
      (∀ l : List Json, sizeOf l ≤ n → Pe l) := by
    intro n
    induction n using Nat.strong_induction_on with
    | _ n ih =>
    refine ⟨?_, ?_, ?_⟩
    · intro j hsz
      match j with
      | .jnull => exact hnull
      | .jundef => exact hundef
      | .jbool b => exact hbool b
      | .jnum m => exact hnum m
      | .jstr s => exact hstr s
      | .jobj fs =>
        apply hobj
        have hs : sizeOf (Json.jobj fs) = 1 + sizeOf fs := by simp
        have hlt : sizeOf fs < n := by omega
        exact (ih (sizeOf fs) hlt).2.1 fs le_rfl
      | .jarr es =>
        apply harr
        have hs : sizeOf (Json.jarr es) = 1 + sizeOf es := by simp
        have hlt : sizeOf es < n := by omega
        exact (ih (sizeOf es) hlt).2.2 es le_rfl
    · intro l hsz
      match l with
      | [] => exact hnilf
      | (k, j) :: rest =>
        have hs : sizeOf ((k, j) :: rest) = 1 + sizeOf (k, j) + sizeOf rest := by
          simp
        have hs2 : sizeOf (k, j) = 1 + sizeOf k + sizeOf j := by simp
        have hj : sizeOf j < n := by omega
        have hr : sizeOf rest < n := by omega
        exact hconsf k j rest ((ih (sizeOf j) hj).1 j le_rfl)
          ((ih (sizeOf rest) hr).2.1 rest le_rfl)
    · intro l hsz
      match l with
      | [] => exact hnile
      | j :: rest =>
        have hs : sizeOf (j :: rest) = 1 + sizeOf j + sizeOf rest := by simp
        have hj : sizeOf j < n := by omega
        have hr : sizeOf rest < n := by omega
        exact hconse j rest ((ih (sizeOf j) hj).1 j le_rfl)
          ((ih (sizeOf rest) hr).2.2 rest le_rfl)
  exact ⟨fun j => (key (sizeOf j)).1 j le_rfl,
    fun l => (key (sizeOf l)).2.1 l le_rfl,
    fun l => (key (sizeOf l)).2.2 l le_rfl⟩

@[simp] theorem unparse_jnull (h : Heap) : unparse h .jnull = (h, .vnull) := by
  rw [unparse]

@[simp] theorem unparse_jundef (h : Heap) : unparse h .jundef = (h, .vundef) := by
  rw [unparse]

@[simp] theorem unparse_jbool (h : Heap) (b : Bool) :
    unparse h (.jbool b) = (h, .vbool b) := by rw [unparse]

@[simp] theorem unparse_jnum (h : Heap) (n : Int) :
    unparse h (.jnum n) = (h, .vnum n) := by rw [unparse]

@[simp] theorem unparse_jstr (h : Heap) (s : String) :
    unparse h (.jstr s) = (h, .vstr s) := by rw [unparse]

theorem unparse_jobj (h : Heap) (fs : List (String × Json)) :
    unparse h (.jobj fs) =
      ((unparseFs h fs).1 ++ [.obj (unparseFs h fs).2],
       .vref (unparseFs h fs).1.length) := by rw [unparse]

theorem unparse_jarr (h : Heap) (es : List Json) :
    unparse h (.jarr es) =
      ((unparseEs h es).1 ++ [.arr (unparseEs h es).2],
       .vref (unparseEs h es).1.length) := by rw [unparse]

@[simp] theorem unparseFs_nil (h : Heap) : unparseFs h [] = (h, []) := by
  rw [unparseFs]

theorem unparseFs_cons (h : Heap) (k : String) (j : Json)
    (rest : List (String × Json)) :
    unparseFs h ((k, j) :: rest) =
      ((unparseFs (unparse h j).1 rest).1,
       (k, (unparse h j).2) :: (unparseFs (unparse h j).1 rest).2) := by
  rw [unparseFs]

@[simp] theorem unparseEs_nil (h : Heap) : unparseEs h [] = (h, []) := by
  rw [unparseEs]

theorem unparseEs_cons (h : Heap) (j : Json) (rest : List Json) :
    unparseEs h (j :: rest) =
      ((unparseEs (unparse h j).1 rest).1,
       (unparse h j).2 :: (unparseEs (unparse h j).1 rest).2) := by
  rw [unparseEs]

theorem heapGet_pref (h1 h2 : Heap) (hpre : h1 <+: h2) (a : Nat)
    (ha : a < h1.length) : heapGet h2 a = heapGet h1 a := by
  obtain ⟨t, rfl⟩ := hpre
  simp [heapGet, List.get?_eq_getElem?, List.getElem?_append_left ha]

/-- `unparse` only appends to the heap. -/
theorem unparse_pref :
    (∀ j : Json, ∀ h : Heap, h <+: (unparse h j).1) ∧
    (∀ l : List (String × Json), ∀ h : Heap, h <+: (unparseFs h l).1) ∧
    (∀ l : List Json, ∀ h : Heap, h <+: (unparseEs h l).1) := by
  refine json_mutual_ind _ _ _ ?_ ?_ ?_ ?_ ?_ ?_ ?_ ?_ ?_ ?_ ?_ <;>
    try (intro h; simp)
  · intro fs ihf h
    rw [unparse_jobj]
    exact (ihf h).trans (List.prefix_append _ _)
  · intro es ihe h
    rw [unparse_jarr]
    exact (ihe h).trans (List.prefix_append _ _)
  · intro k j rest ihj ihr h
    rw [unparseFs_cons]
    exact (ihj h).trans (ihr (unparse h j).1)
  · intro j rest ihj ihr h
    rw [unparseEs_cons]
    exact (ihj h).trans (ihr (unparse h j).1)

/-- `unparse` allocates at least one object per nesting level, so the final
heap is large enough to serialize the result with canonical fuel. -/
theorem unparse_length_ge :
    (∀ j : Json, ∀ h : Heap,
      h.length + jdepth j ≤ (unparse h j).1.length) ∧
    (∀ l : List (String × Json), ∀ h : Heap,
      h.length + jdepthFs l ≤ (unparseFs h l).1.length) ∧
    (∀ l : List Json, ∀ h : Heap,
      h.length + jdepthEs l ≤ (unparseEs h l).1.length) := by
  refine json_mutual_ind _ _ _ ?_ ?_ ?_ ?_ ?_ ?_ ?_ ?_ ?_ ?_ ?_
  · intro h; simp [jdepth]
  · intro h; simp [jdepth]
  · intro b h; simp [jdepth]
  · intro n h; simp [jdepth]
  · intro s h; simp [jdepth]
  · intro fs ihf h
    rw [unparse_jobj]
    have := ihf h
    simp only [jdepth, List.length_append, List.length_cons, List.length_nil]
    omega
  · intro es ihe h
    rw [unparse_jarr]
    have := ihe h
    simp only [jdepth, List.length_append, List.length_cons, List.length_nil]
    omega
  · intro h; simp [jdepthFs]
  · intro k j rest ihj ihr h
    rw [unparseFs_cons]
    have h1 := ihj h
    have h2 := ihr (unparse h j).1
    simp only [jdepthFs]
    omega
  · intro h; simp [jdepthEs]
  · intro j rest ihj ihr h
    rw [unparseEs_cons]
    have h1 := ihj h
    have h2 := ihr (unparse h j).1
    simp only [jdepthEs]
    omega

/-- The value returned by `unparse` references only freshly allocated
addresses, and every fresh object's stored references stay within the
fresh segment of the final heap. -/
theorem unparse_bound :
    (∀ j : Json, ∀ h : Heap,
      (∀ a, (unparse h j).2 = .vref a →
        h.length ≤ a ∧ a < (unparse h j).1.length) ∧
      (∀ a o, h.length ≤ a → heapGet (unparse h j).1 a = some o →
        ∀ b, JVal.vref b ∈ o.vals →
          h.length ≤ b ∧ b < (unparse h j).1.length)) ∧
    (∀ l : List (String × Json), ∀ h : Heap,
      (∀ v ∈ (unparseFs h l).2.map Prod.snd, ∀ a, v = .vref a →
        h.length ≤ a ∧ a < (unparseFs h l).1.length) ∧
      (∀ a o, h.length ≤ a → heapGet (unparseFs h l).1 a = some o →
        ∀ b, JVal.vref b ∈ o.vals →
          h.length ≤ b ∧ b < (unparseFs h l).1.length)) ∧
    (∀ l : List Json, ∀ h : Heap,
      (∀ v ∈ (unparseEs h l).2, ∀ a, v = .vref a →
        h.length ≤ a ∧ a < (unparseEs h l).1.length) ∧
      (∀ a o, h.length ≤ a → heapGet (unparseEs h l).1 a = some o →
        ∀ b, JVal.vref b ∈ o.vals →
          h.length ≤ b ∧ b < (unparseEs h l).1.length)) := by
  have closTriv : ∀ (h : Heap) (a : Nat) (o : JObj), h.length ≤ a →
      heapGet h a = some o → False := by
    intro h a o hle hget
    have := heapGet_lt_length h a o hget
    omega
  refine json_mutual_ind _ _ _ ?_ ?_ ?_ ?_ ?_ ?_ ?_ ?_ ?_ ?_ ?_
  · exact fun h => ⟨fun a ha => by simp at ha,
      fun a o hle hget => absurd (closTriv h a o hle (by simpa using hget))
        not_false⟩
  · exact fun h => ⟨fun a ha => by simp at ha,
      fun a o hle hget => absurd (closTriv h a o hle (by simpa using hget))
        not_false⟩
  · exact fun b h => ⟨fun a ha => by simp at ha,
      fun a o hle hget => absurd (closTriv h a o hle (by simpa using hget))
        not_false⟩
  · exact fun n h => ⟨fun a ha => by simp at ha,
      fun a o hle hget => absurd (closTriv h a o hle (by simpa using hget))
        not_false⟩
  · exact fun s h => ⟨fun a ha => by simp at ha,
      fun a o hle hget => absurd (closTriv h a o hle (by simpa using hget))
        not_false⟩
  · -- jobj
    intro fs ihf h
    rw [unparse_jobj]
    have hpre : h <+: (unparseFs h fs).1 := unparse_pref.2.1 fs h
    have hlen : h.length ≤ (unparseFs h fs).1.length := hpre.length_le
    constructor
    · intro a ha
      simp only at ha
      cases ha
      constructor
      · exact hlen
      · simp
    · intro a o hle hget b hb
      simp only [List.length_append, List.length_cons, List.length_nil]
      rcases Nat.lt_trichotomy a (unparseFs h fs).1.length with hlt | heq | hgt
      · have hget' : heapGet (unparseFs h fs).1 a = some o := by
          rw [← heapGet_pref (unparseFs h fs).1 _ (List.prefix_append _ _) a hlt]
          exact hget
        have := ((ihf h).2) a o hle hget' b hb
        omega
      · subst heq
        rw [heapGet_append_len] at hget
        cases hget
        have := (ihf h).1 (JVal.vref b) (by simpa [JObj.vals] using hb) b rfl
        omega
      · exfalso
        have hlt2 := heapGet_lt_length _ a o hget
        simp only [List.length_append, List.length_cons, List.length_nil] at hlt2
        omega
  · -- jarr
    intro es ihe h
    rw [unparse_jarr]
    have hpre : h <+: (unparseEs h es).1 := unparse_pref.2.2 es h
    have hlen : h.length ≤ (unparseEs h es).1.length := hpre.length_le
    constructor
    · intro a ha
      simp only at ha
      cases ha
      constructor
      · exact hlen
      · simp
    · intro a o hle hget b hb
      simp only [List.length_append, List.length_cons, List.length_nil]
      rcases Nat.lt_trichotomy a (unparseEs h es).1.length with hlt | heq | hgt
      · have hget' : heapGet (unparseEs h es).1 a = some o := by
          rw [← heapGet_pref (unparseEs h es).1 _ (List.prefix_append _ _) a hlt]
          exact hget
        have := ((ihe h).2) a o hle hget' b hb
        omega
      · subst heq
        rw [heapGet_append_len] at hget
        cases hget
        have := (ihe h).1 (JVal.vref b) (by simpa [JObj.vals] using hb) b rfl
        omega
      · exfalso
        have hlt2 := heapGet_lt_length _ a o hget
        simp only [List.length_append, List.length_cons, List.length_nil] at hlt2
        omega
  · -- Fs nil
    intro h
    exact ⟨fun v hv => by simp at hv,
      fun a o hle hget => absurd (closTriv h a o hle (by simpa using hget))
        not_false⟩
  · -- Fs cons
    intro k j rest ihj ihr h
    rw [unparseFs_cons]
    dsimp only
    have hpre1 : h <+: (unparse h j).1 := unparse_pref.1 j h
    have hpre2 : (unparse h j).1 <+: (unparseFs (unparse h j).1 rest).1 :=
      unparse_pref.2.1 rest (unparse h j).1
    have hlen1 : h.length ≤ (unparse h j).1.length := hpre1.length_le
    have hlen2 : (unparse h j).1.length ≤
        (unparseFs (unparse h j).1 rest).1.length := hpre2.length_le
    constructor
    · intro v hv a ha
      simp only [List.map_cons, List.mem_cons] at hv
      rcases hv with rfl | hv
      · have := (ihj h).1 a ha
        omega
      · have := (ihr (unparse h j).1).1 v hv a ha
        omega
    · intro a o hle hget b hb
      rcases Nat.lt_or_ge a (unparse h j).1.length with hlt | hge
      · have hget' : heapGet (unparse h j).1 a = some o := by
          rw [← heapGet_pref (unparse h j).1 _ hpre2 a hlt]
          exact hget
        have := (ihj h).2 a o hle hget' b hb
        omega
      · have := (ihr (unparse h j).1).2 a o hge hget b hb
        omega
  · -- Es nil
    intro h
    exact ⟨fun v hv => by simp at hv,
      fun a o hle hget => absurd (closTriv h a o hle (by simpa using hget))
        not_false⟩
  · -- Es cons
    intro j rest ihj ihr h
    rw [unparseEs_cons]
    dsimp only
    have hpre1 : h <+: (unparse h j).1 := unparse_pref.1 j h
    have hpre2 : (unparse h j).1 <+: (unparseEs (unparse h j).1 rest).1 :=
      unparse_pref.2.2 rest (unparse h j).1
    have hlen1 : h.length ≤ (unparse h j).1.length := hpre1.length_le
    have hlen2 : (unparse h j).1.length ≤
        (unparseEs (unparse h j).1 rest).1.length := hpre2.length_le
    constructor
    · intro v hv a ha
      simp only [List.mem_cons] at hv
      rcases hv with rfl | hv
      · have := (ihj h).1 a ha
        omega
      · have := (ihr (unparse h j).1).1 v hv a ha
        omega
    · intro a o hle hget b hb
      rcases Nat.lt_or_ge a (unparse h j).1.length with hlt | hge
      · have hget' : heapGet (unparse h j).1 a = some o := by
          rw [← heapGet_pref (unparse h j).1 _ hpre2 a hlt]
          exact hget
        have := (ihj h).2 a o hle hget' b hb
        omega
      · have := (ihr (unparse h j).1).2 a o hge hget b hb
        omega

theorem isUndef_eq_false_of_noUndef (j : Json) (hnu : noUndef j = true) :
    j.isUndef = false := by
  cases j <;> first
  | rfl
  | (exfalso; rw [noUndef] at hnu; cases hnu)

/-- Round trip: serializing the freshly materialised copy of a
`jundef`-free JSON tree recovers the tree, in any extension of the
resulting heap, with any sufficient fuel, along any path that avoids the
fresh segment. -/
theorem unparse_roundtrip :
    (∀ j : Json, noUndef j = true → ∀ (h H : Heap) (fuel : Nat)
      (path : List Nat), (unparse h j).1 <+: H → jdepth j ≤ fuel →
      (∀ b ∈ path, b < h.length ∨ (unparse h j).1.length ≤ b) →
      serializeV H fuel path (unparse h j).2 = .ok j) ∧
    (∀ l : List (String × Json), noUndefFs l = true →
      ∀ (h H : Heap) (fuel : Nat) (path : List Nat),
      (unparseFs h l).1 <+: H → jdepthFs l ≤ fuel →
      (∀ b ∈ path, b < h.length ∨ (unparseFs h l).1.length ≤ b) →
      serializeFs H fuel path (unparseFs h l).2 = .ok l) ∧
    (∀ l : List Json, noUndefEs l = true →
      ∀ (h H : Heap) (fuel : Nat) (path : List Nat),
      (unparseEs h l).1 <+: H → jdepthEs l ≤ fuel →
      (∀ b ∈ path, b < h.length ∨ (unparseEs h l).1.length ≤ b) →
      serializeEs H fuel path (unparseEs h l).2 = .ok l) := by
  refine json_mutual_ind _ _ _ ?_ ?_ ?_ ?_ ?_ ?_ ?_ ?_ ?_ ?_ ?_
  · intro _ h H fuel path _ _ _; simp
  · intro hcon; cases hcon
  · intro b _ h H fuel path _ _ _; simp
  · intro n _ h H fuel path _ _ _; simp
  · intro s _ h H fuel path _ _ _; simp
  · -- jobj
    intro fs ihf hnu h H fuel path hpre hdepth hpath
    rw [unparse_jobj] at hpre hpath ⊢
    dsimp only at hpre hpath ⊢
    have hnuf : noUndefFs fs = true := by rwa [noUndef] at hnu
    have hlenh : h.length ≤ (unparseFs h fs).1.length :=
      (unparse_pref.2.1 fs h).length_le
    have hnotin : (unparseFs h fs).1.length ∉ path := by
      intro hmem
      rcases hpath (unparseFs h fs).1.length hmem with hlt | hge
      · omega
      · simp only [List.length_append, List.length_cons, List.length_nil] at hge
        omega
    have hget : heapGet H (unparseFs h fs).1.length = some (.obj (unparseFs h fs).2) := by
      rw [heapGet_pref _ H hpre (unparseFs h fs).1.length
        (by simp only [List.length_append, List.length_cons, List.length_nil]; omega)]
      exact heapGet_append_len (unparseFs h fs).1 _
    obtain ⟨f, rfl⟩ : ∃ f, fuel = f + 1 := by
      rw [jdepth] at hdepth
      exact ⟨fuel - 1, by omega⟩
    rw [serializeV_vref_obj H f path (unparseFs h fs).1.length (unparseFs h fs).2 hnotin hget]
    have hfs := ihf hnuf h H f ((unparseFs h fs).1.length :: path)
      ((List.prefix_append _ _).trans hpre)
      (by rw [jdepth] at hdepth; omega)
      (by
        intro b hb
        rcases List.mem_cons.mp hb with rfl | hbp
        · right; exact le_rfl
        · rcases hpath b hbp with hlt | hge
          · left; exact hlt
          · right
            simp only [List.length_append, List.length_cons, List.length_nil] at hge
            omega)
    rw [hfs]
    rfl
  · -- jarr
    intro es ihe hnu h H fuel path hpre hdepth hpath
    rw [unparse_jarr] at hpre hpath ⊢
    dsimp only at hpre hpath ⊢
    have hnue : noUndefEs es = true := by rwa [noUndef] at hnu
    have hlenh : h.length ≤ (unparseEs h es).1.length :=
      (unparse_pref.2.2 es h).length_le
    have hnotin : (unparseEs h es).1.length ∉ path := by
      intro hmem
      rcases hpath (unparseEs h es).1.length hmem with hlt | hge
      · omega
      · simp only [List.length_append, List.length_cons, List.length_nil] at hge
        omega
    have hget : heapGet H (unparseEs h es).1.length = some (.arr (unparseEs h es).2) := by
      rw [heapGet_pref _ H hpre (unparseEs h es).1.length
        (by simp only [List.length_append, List.length_cons, List.length_nil]; omega)]
      exact heapGet_append_len (unparseEs h es).1 _
    obtain ⟨f, rfl⟩ : ∃ f, fuel = f + 1 := by
      rw [jdepth] at hdepth
      exact ⟨fuel - 1, by omega⟩
    rw [serializeV_vref_arr H f path (unparseEs h es).1.length (unparseEs h es).2 hnotin hget]
    have hes := ihe hnue h H f ((unparseEs h es).1.length :: path)
      ((List.prefix_append _ _).trans hpre)
      (by rw [jdepth] at hdepth; omega)
      (by
        intro b hb
        rcases List.mem_cons.mp hb with rfl | hbp
        · right; exact le_rfl
        · rcases hpath b hbp with hlt | hge
          · left; exact hlt
          · right
            simp only [List.length_append, List.length_cons, List.length_nil] at hge
            omega)
    rw [hes]
    rfl
  · intro _ h H fuel path _ _ _; simp
  · -- Fs cons
    intro k j rest ihj ihr hnu h H fuel path hpre hdepth hpath
    rw [unparseFs_cons] at hpre hpath ⊢
    dsimp only at hpre hpath ⊢
    have hnuj : noUndef j = true := by
      rw [noUndefFs, Bool.and_eq_true] at hnu
      exact hnu.1
    have hnur : noUndefFs rest = true := by
      rw [noUndefFs, Bool.and_eq_true] at hnu
      exact hnu.2
    have hpre1 : (unparse h j).1 <+:
        (unparseFs (unparse h j).1 rest).1 :=
      unparse_pref.2.1 rest (unparse h j).1
    have hlen1 : h.length ≤ (unparse h j).1.length :=
      (unparse_pref.1 j h).length_le
    have hlen2 : (unparse h j).1.length ≤
        (unparseFs (unparse h j).1 rest).1.length := hpre1.length_le
    rw [serializeFs_cons]
    have hj := ihj hnuj h H fuel path (hpre1.trans hpre)
      (by rw [jdepthFs] at hdepth; omega)
      (by
        intro b hb
        rcases hpath b hb with hlt | hge
        · left; exact hlt
        · right; omega)
    have hr := ihr hnur (unparse h j).1 H fuel path hpre
      (by rw [jdepthFs] at hdepth; omega)
      (by
        intro b hb
        rcases hpath b hb with hlt | hge
        · left; omega
        · right; exact hge)
    rw [hj, hr]
    dsimp only
    simp [isUndef_eq_false_of_noUndef j hnuj]
  · intro _ h H fuel path _ _ _; simp
  · -- Es cons
    intro j rest ihj ihr hnu h H fuel path hpre hdepth hpath
    rw [unparseEs_cons] at hpre hpath ⊢
    dsimp only at hpre hpath ⊢
    have hnuj : noUndef j = true := by
      rw [noUndefEs, Bool.and_eq_true] at hnu
      exact hnu.1
    have hnur : noUndefEs rest = true := by
      rw [noUndefEs, Bool.and_eq_true] at hnu
      exact hnu.2
    have hpre1 : (unparse h j).1 <+:
        (unparseEs (unparse h j).1 rest).1 :=
      unparse_pref.2.2 rest (unparse h j).1
    have hlen1 : h.length ≤ (unparse h j).1.length :=
      (unparse_pref.1 j h).length_le
    have hlen2 : (unparse h j).1.length ≤
        (unparseEs (unparse h j).1 rest).1.length := hpre1.length_le
    rw [serializeEs_cons]
    have hj := ihj hnuj h H fuel path (hpre1.trans hpre)
      (by rw [jdepthEs] at hdepth; omega)
      (by
        intro b hb
        rcases hpath b hb with hlt | hge
        · left; exact hlt
        · right; omega)
    have hr := ihr hnur (unparse h j).1 H fuel path hpre
      (by rw [jdepthEs] at hdepth; omega)
      (by
        intro b hb
        rcases hpath b hb with hlt | hge
        · left; omega
        · right; exact hge)
    rw [hj, hr]
    dsimp only
    simp [isUndef_eq_false_of_noUndef j hnuj]

theorem metaFields_some_shape (h : Heap) (v : JVal)
    (fs : List (String × JVal)) (hmf : metaFields h v = some fs) :
    ∃ a, v = .vref a ∧ heapGet h a = some (.obj fs) := by
  match v with
  | .vnull | .vundef | .vbool _ | .vnum _ | .vstr _ | .vfun _ =>
    exact absurd hmf (by simp [metaFields])
  | .vref a =>
    refine ⟨a, rfl, ?_⟩
    simp only [metaFields] at hmf
    cases hget : heapGet h a with
    | none => rw [hget] at hmf; cases hmf
    | some o =>
      cases o with
      | obj fs' => rw [hget] at hmf; cases hmf; rfl
      | arr es => rw [hget] at hmf; cases hmf

theorem serialize_vref_ok_not_undef (h : Heap) (a : Nat) (j : Json)
    (hok : serialize h (.vref a) = .ok j) : j ≠ .jundef := by
  unfold serialize serFuel at hok
  have ha : a ∉ ([] : List Nat) := List.not_mem_nil a
  cases hget : heapGet h a with
  | none =>
    rw [serializeV_vref_dangling h _ [] a ha hget] at hok
    cases hok
    intro hcon; cases hcon
  | some o =>
    cases o with
    | obj fs =>
      rw [serializeV_vref_obj h h.length [] a fs ha hget] at hok
      cases hfs : serializeFs h h.length [a] fs with
      | error e => rw [hfs] at hok; cases hok
      | ok lfs =>
        rw [hfs] at hok
        simp only [Except.map] at hok
        cases hok
        intro hcon; cases hcon
    | arr es =>
      rw [serializeV_vref_arr h h.length [] a es ha hget] at hok
      cases hes : serializeEs h h.length [a] es with
      | error e => rw [hes] at hok; cases hok
      | ok les =>
        rw [hes] at hok
        simp only [Except.map] at hok
        cases hok
        intro hcon; cases hcon

/-- Re-serializing the freshly materialised copy of a serialized object
always succeeds and reproduces the same tree (this is why the
`'Failed to serialize event data'` branch of the deep-copy module is
unreachable). -/
theorem serialize_unparse_ok (h : Heap) (a : Nat) (j : Json)
    (hok : serialize h (.vref a) = .ok j) :
    serialize (unparse h j).1 (unparse h j).2 = .ok j := by
  have hnu : noUndef j = true := by
    rcases (serialize_ok_noUndef_main (serFuel h)).1 h [] (.vref a) j hok with
      hgood | hbad
    · exact hgood
    · exact absurd hbad (serialize_vref_ok_not_undef h a j hok)
  have hdep := unparse_length_ge.1 j h
  exact unparse_roundtrip.1 j hnu h (unparse h j).1
    (serFuel (unparse h j).1) [] (List.prefix_refl _)
    (by unfold serFuel; omega) (by intro b hb; cases hb)

theorem createEvent_deep_err_state (s : EState) (now : Int) (ty m md : JVal)
    (msg : String)
    (hres : (EventDeep.createEvent s now ty m md).2 = .err msg) :
    (EventDeep.createEvent s now ty m md).1 = s := by
  unfold EventDeep.createEvent at hres ⊢
  split at hres
  · rfl
  · split at hres
    · rfl
    · split at hres
      · rfl
      · rename_i t ht m2 hm fs hmf
        split at hres
        · rfl
        · rename_i j hser
          dsimp only at hres ⊢
          split at hres
          · exfalso
            rename_i e hser2
            obtain ⟨a, rfl, hget⟩ := metaFields_some_shape s.heap md fs hmf
            rw [serialize_unparse_ok s.heap a j hser] at hser2
            cases hser2
          · cases hres

/-- Claim C10: a `createEvent` call that returns a failure result leaves
the stored event sequence and the id counter (and the heap) unchanged, in
both the `src/event.js` module and the deep-copy module, so a failed
create never consumes an id and re-running any call against the resulting
state behaves as if the failed call never happened. -/
theorem c10_failed_create_no_effect :
    (∀ (s : EState) (now : Int) (ty m md : JVal) (msg : String),
      (EventJs.createEvent s now ty m md).2 = .err msg →
      (EventJs.createEvent s now ty m md).1 = s) ∧
    (∀ (s : EState) (now : Int) (ty m md : JVal) (msg : String),
      (EventDeep.createEvent s now ty m md).2 = .err msg →
      (EventDeep.createEvent s now ty m md).1 = s) :=
  ⟨fun s now ty m md msg h => createEvent_err_state s now ty m md msg h,
   fun s now ty m md msg h => createEvent_deep_err_state s now ty m md msg h⟩

/-- Witness for C10 at a concrete input: a create with a numeric type
fails in both modules and leaves the sample state untouched. -/
theorem c10_failed_create_no_effect_witness :
    ((EventJs.createEvent sampleState 7 (.vnum 3) (.vstr "m") (.vref 0)).2 =
      .err "Event type is required and must be a non-empty string" ∧
     (EventJs.createEvent sampleState 7 (.vnum 3) (.vstr "m") (.vref 0)).1 =
      sampleState) ∧
    ((EventDeep.createEvent sampleState 7 (.vnum 3) (.vstr "m") (.vref 0)).2 =
      .err "Event type is required and must be a non-empty string" ∧
     (EventDeep.createEvent sampleState 7 (.vnum 3) (.vstr "m") (.vref 0)).1 =
      sampleState) :=
  ⟨⟨by decide,
    c10_failed_create_no_effect.1 sampleState 7 (.vnum 3) (.vstr "m")
      (.vref 0) "Event type is required and must be a non-empty string"
      (by decide)⟩,
   ⟨by decide,
    c10_failed_create_no_effect.2 sampleState 7 (.vnum 3) (.vstr "m")
      (.vref 0) "Event type is required and must be a non-empty string"
      (by decide)⟩⟩

theorem setField_length (h : Heap) (a : Nat) (k : String) (v : JVal) :
    (setField h a k v).length = h.length := by
  unfold setField
  cases hget : heapGet h a with
  | none => rfl
  | some o => cases o <;> simp

theorem setField_get_ne (h : Heap) (a : Nat) (k : String) (v : JVal)
    (b : Nat) (hne : b ≠ a) :
    heapGet (setField h a k v) b = heapGet h b := by
  unfold setField
  cases hget : heapGet h a with
  | none => rfl
  | some o =>
    cases o with
    | obj fs => simp [heapGet, List.get?_eq_getElem?, List.getElem?_set_ne (Ne.symm hne)]
    | arr es => rfl

theorem setF_vals (fs : List (String × JVal)) (k : String) (v : JVal) :
    ∀ w ∈ (setF fs k v).map Prod.snd, w ∈ fs.map Prod.snd ∨ w = v := by
  induction fs with
  | nil => intro w hw; simp [setF] at hw; right; exact hw
  | cons kv rest ih =>
    intro w hw
    obtain ⟨k', v'⟩ := kv
    rw [setF] at hw
    by_cases hk : k' = k
    · rw [if_pos hk] at hw
      simp only [List.map_cons, List.mem_cons] at hw
      rcases hw with rfl | hw
      · right; rfl
      · left; simp [hw]
    · rw [if_neg hk] at hw
      simp only [List.map_cons, List.mem_cons] at hw
      rcases hw with rfl | hw
      · left; simp
      · rcases ih w hw with hin | rfl
        · left; simp [hin]
        · right; rfl

/-- Mutating an address that is not reachable from `r` does not change
what is reachable from `r`. -/
theorem reachA_setField_eq (h : Heap) (a : Nat) (k : String) (v : JVal)
    (r : Nat) (hna : ¬ReachA h r a) (b : Nat) :
    ReachA (setField h a k v) r b ↔ ReachA h r b := by
  constructor
  · intro hreach
    induction hreach with
    | refl => exact Relation.ReflTransGen.refl
    | tail hchain hstep ih =>
      rename_i b' c
      have hb'ne : b' ≠ a := fun hcon => hna (hcon ▸ ih)
      obtain ⟨o, ho, hv⟩ := hstep
      rw [setField_get_ne h a k v b' hb'ne] at ho
      exact Relation.ReflTransGen.tail ih ⟨o, ho, hv⟩
  · intro hreach
    induction hreach with
    | refl => exact Relation.ReflTransGen.refl
    | tail hchain hstep ih =>
      rename_i b' c
      have hb'ne : b' ≠ a := fun hcon => hna (hcon ▸ hchain)
      obtain ⟨o, ho, hv⟩ := hstep
      exact Relation.ReflTransGen.tail ih
        ⟨o, (setField_get_ne h a k v b' hb'ne).trans ho, hv⟩

/-- Reachability within a bounded region is unaffected by appending to the
heap. -/
theorem reachA_extension (h H : Heap) (hpre : h <+: H) (r : Nat)
    (hcl : ∀ b, ReachA h r b → b < h.length) (b : Nat) :
    ReachA H r b ↔ ReachA h r b := by
  constructor
  · intro hreach
    induction hreach with
    | refl => exact Relation.ReflTransGen.refl
    | tail hchain hstep ih =>
      rename_i b' c
      obtain ⟨o, ho, hv⟩ := hstep
      rw [heapGet_pref h H hpre b' (hcl b' ih)] at ho
      exact Relation.ReflTransGen.tail ih ⟨o, ho, hv⟩
  · intro hreach
    induction hreach with
    | refl => exact Relation.ReflTransGen.refl
    | tail hchain hstep ih =>
      rename_i b' c
      obtain ⟨o, ho, hv⟩ := hstep
      exact Relation.ReflTransGen.tail ih
        ⟨o, (heapGet_pref h H hpre b' (hcl b' hchain)).trans ho, hv⟩

/-- Reachability from inside a reference-closed heap segment stays in the
segment. -/
theorem reach_in_seg (h' : Heap) (lo : Nat)
    (closed : ∀ a, lo ≤ a → ∀ o, heapGet h' a = some o →
      ∀ b, JVal.vref b ∈ o.vals → lo ≤ b ∧ b < h'.length)
    (a0 : Nat) (hlo : lo ≤ a0) (hhi : a0 < h'.length) :
    ∀ b, ReachA h' a0 b → lo ≤ b ∧ b < h'.length := by
  intro b hreach
  induction hreach with
  | refl => exact ⟨hlo, hhi⟩
  | tail hchain hstep ih =>
    rename_i b' c
    obtain ⟨o, ho, hv⟩ := hstep
    exact closed b' ih.1 o ho c hv

/-- Serialization is unchanged by appending to the heap, as long as the
serialized value's reachable region is within the original heap. -/
theorem serialize_stable (h H : Heap) (v : JVal) (hpre : h <+: H)
    (hb : ∀ b, ReachV h v b → b < h.length) :
    serialize H v = serialize h v := by
  have hcongr : serializeV H (serFuel H) [] v =
      serializeV h (serFuel H) [] v :=
    serializeV_congr h H (serFuel H) [] v
      (fun b hrb => heapGet_pref h H hpre b (hb b hrb))
  have hnofuel : serialize h v ≠ .error .fuel :=
    (serialize_no_fuel_main (serFuel h)).1 h [] v List.nodup_nil
      (by intro b hbmem; cases hbmem) (by unfold serFuel; simp)
  have hmono := (serialize_fuel_mono_main (serFuel h)).1 h [] v (serFuel H)
    (serialize h v) (by unfold serFuel; have := hpre.length_le; omega)
    rfl hnofuel
  unfold serialize at hmono ⊢
  rw [hcongr, hmono]

/-- Serialization is unchanged by mutating an address unreachable from the
serialized value. -/
theorem serialize_setField_stable (h : Heap) (a : Nat) (k : String)
    (v root : JVal) (hna : ¬ReachV h root a) :
    serialize (setField h a k v) root = serialize h root := by
  have hlen : (setField h a k v).length = h.length := setField_length h a k v
  unfold serialize serFuel
  rw [hlen]
  exact serializeV_congr h (setField h a k v) (h.length + 1) [] root
    (fun b hrb => setField_get_ne h a k v b (fun hcon => hna (hcon ▸ hrb)))

theorem callerHolds_step (h : Heap) (roots : List JVal) (b c : Nat)
    (hb : CallerHolds h roots b) (hstep : Step h b c) :
    CallerHolds h roots c := by
  obtain ⟨r, hr, a0, rfl, hchain⟩ := hb
  exact ⟨.vref a0, hr, a0, rfl, Relation.ReflTransGen.tail hchain hstep⟩

theorem setField_get_self (h : Heap) (a : Nat) (k : String) (v : JVal) :
    heapGet (setField h a k v) a =
      match heapGet h a with
      | some (.obj fs) => some (.obj (setF fs k v))
      | o => o := by
  unfold setField
  cases hget : heapGet h a with
  | none => rw [hget]
  | some o =>
    cases o with
    | obj fs =>
      have hlt : a < h.length := heapGet_lt_length h a _ hget
      simp [heapGet, List.get?_eq_getElem?, List.getElem?_set_self, hlt]
    | arr es => rw [hget]

/-- Mutating a caller-held object with a caller-buildable value does not
extend the caller's reach beyond its old closure. -/
theorem callerHolds_setField_subset (h : Heap) (roots : List JVal)
    (a : Nat) (k : String) (v : JVal) (hac : CallerHolds h roots a)
    (hv : ValHeld h roots v) (b : Nat)
    (hb : CallerHolds (setField h a k v) roots b) :
    CallerHolds h roots b := by
  obtain ⟨r, hr, a0, rfl, hchain⟩ := hb
  have base : CallerHolds h roots a0 :=
    ⟨.vref a0, hr, a0, rfl, Relation.ReflTransGen.refl⟩
  clear hr
  induction hchain with
  | refl => exact base
  | tail hchain' hstep ih =>
    rename_i b' c
    have hb' : CallerHolds h roots b' := ih
    obtain ⟨o, ho, hvv⟩ := hstep
    by_cases hba : b' = a
    · subst hba
      rw [setField_get_self] at ho
      cases hget : heapGet h b' with
      | none => rw [hget] at ho; cases ho
      | some o' =>
        cases o' with
        | obj fs =>
          rw [hget] at ho
          cases ho
          rcases setF_vals fs k v _ hvv with hold | rfl
          · exact callerHolds_step h roots b' c hb' ⟨.obj fs, hget, hold⟩
          · exact hv c rfl
        | arr es =>
          rw [hget] at ho
          cases ho
          exact callerHolds_step h roots b' c hb' ⟨.arr es, hget, hvv⟩
    · rw [setField_get_ne h a k v b' hba] at ho
      exact callerHolds_step h roots b' c hb' ⟨o, ho, hvv⟩

/-- Re-serializing the materialised copy of a `jundef`-free tree yields
the tree back (canonical-fuel form). -/
theorem serialize_unparse_ok_of_noUndef (h : Heap) (j : Json)
    (hnu : noUndef j = true) :
    serialize (unparse h j).1 (unparse h j).2 = .ok j := by
  have hdep := unparse_length_ge.1 j h
  exact unparse_roundtrip.1 j hnu h (unparse h j).1
    (serFuel (unparse h j).1) [] (List.prefix_refl _)
    (by unfold serFuel; omega) (by intro b hb; cases hb)

/-- Everything reachable from the root returned by `unparse` lies in the
freshly allocated segment. -/
theorem unparse_reach_seg (h : Heap) (j : Json) (b : Nat)
    (hreach : ReachV (unparse h j).1 (unparse h j).2 b) :
    h.length ≤ b ∧ b < (unparse h j).1.length := by
  obtain ⟨a, ha, hchain⟩ := hreach
  have hroot := (unparse_bound.1 j h).1 a ha
  exact reach_in_seg (unparse h j).1 h.length
    (fun a' hlo o hget b' hb' => (unparse_bound.1 j h).2 a' o hlo hget b' hb')
    a hroot.1 hroot.2 b hchain

theorem cloneEvents_nil (h : Heap) :
    EventDeep.cloneEvents h [] = .ok (h, []) := by
  rw [EventDeep.cloneEvents]

theorem cloneEvents_cons (h : Heap) (e : EventRec) (rest : List EventRec) :
    EventDeep.cloneEvents h (e :: rest) =
      match serialize h e.metadata with
      | .error _ => .error "Failed to serialize events data"
      | .ok j =>
        match EventDeep.cloneEvents (unparse h j).1 rest with
        | .error msg => .error msg
        | .ok (h2, l) =>
          .ok (h2, ⟨e.id, e.type, e.message, (unparse h j).2, e.timestamp⟩ :: l) := by
  rw [EventDeep.cloneEvents]

theorem forall2_imp_mem {α β : Type} (R S : α → β → Prop)
    (l : List α) (l2 : List β) (h : List.Forall₂ R l l2)
    (himp : ∀ x ∈ l, ∀ y, R x y → S x y) : List.Forall₂ S l l2 := by
  induction h with
  | nil => exact .nil
  | cons hR hrest ih =>
    rename_i x y xs ys
    exact .cons (himp x (by simp) y hR)
      (ih (fun x' hx' y' hxy' => himp x' (by simp [hx']) y' hxy'))

/-- Correspondence between a list of stored events and its deep clone:
the clone extends the heap, reproduces the scalar fields and the metadata
denotation, and reaches only freshly allocated addresses. -/
theorem cloneEvents_spec (l : List EventRec) : ∀ (h h2 : Heap)
    (l2 : List EventRec),
    (∀ e ∈ l, ∀ b, ReachV h e.metadata b → b < h.length) →
    EventDeep.cloneEvents h l = .ok (h2, l2) →
    h <+: h2 ∧
    List.Forall₂ (fun e er =>
      er.id = e.id ∧ er.type = e.type ∧ er.message = e.message ∧
      er.timestamp = e.timestamp ∧
      serialize h2 er.metadata = serialize h e.metadata ∧
      (∀ b, ReachV h2 er.metadata b → h.length ≤ b ∧ b < h2.length)) l l2 := by
  induction l with
  | nil =>
    intro h h2 l2 hwf hok
    rw [cloneEvents_nil] at hok
    cases hok
    exact ⟨List.prefix_refl _, List.Forall₂.nil⟩
  | cons e rest ih =>
    intro h h2 l2 hwf hok
    rw [cloneEvents_cons] at hok
    cases hser : serialize h e.metadata with
    | error err => rw [hser] at hok; dsimp only at hok; cases hok
    | ok j =>
      rw [hser] at hok
      dsimp only at hok
      cases hrec : EventDeep.cloneEvents (unparse h j).1 rest with
      | error msg => rw [hrec] at hok; dsimp only at hok; cases hok
      | ok pr =>
        obtain ⟨h2', l'⟩ := pr
        rw [hrec] at hok
        dsimp only at hok
        cases hok
        have hpre1 : h <+: (unparse h j).1 := unparse_pref.1 j h
        have hwf' : ∀ e' ∈ rest, ∀ b,
            ReachV (unparse h j).1 e'.metadata b → b < (unparse h j).1.length := by
          intro e' he' b hrb
          obtain ⟨a0, ha0, hchain⟩ := hrb
          have hclosure : ∀ b', ReachA h a0 b' → b' < h.length := by
            intro b' hrb'
            exact hwf e' (List.mem_cons_of_mem e he') b' ⟨a0, ha0, hrb'⟩
          have := (reachA_extension h (unparse h j).1 hpre1 a0 hclosure b).mp hchain
          have hb := hclosure b this
          have := hpre1.length_le
          omega
        obtain ⟨hpre2, hcorr⟩ := ih (unparse h j).1 h2 l' hwf' hrec
        have hpre : h <+: h2 := hpre1.trans hpre2
        refine ⟨hpre, List.Forall₂.cons ⟨rfl, rfl, rfl, rfl, ?_, ?_⟩ ?_⟩
        · -- metadata denotation of the head clone
          rcases (serialize_ok_noUndef_main (serFuel h)).1 h [] e.metadata j
              hser with hnu | hundef
          · have hrt := serialize_unparse_ok_of_noUndef h j hnu
            have hbound : ∀ b, ReachV (unparse h j).1 (unparse h j).2 b →
                b < (unparse h j).1.length :=
              fun b hb => (unparse_reach_seg h j b hb).2
            rw [serialize_stable (unparse h j).1 h2 (unparse h j).2 hpre2 hbound,
              hrt, hser]
          · subst hundef
            rw [unparse_jundef]
            rw [unparse_jundef] at hpre2
            simp only [serialize, serializeV_vundef]
            exact hser.symm
        · -- reach bound of the head clone
          intro b hb
          rcases (serialize_ok_noUndef_main (serFuel h)).1 h [] e.metadata j
              hser with hnu | hundef
          · obtain ⟨a0, ha0, hchain⟩ := hb
            have hroot := (unparse_bound.1 j h).1 a0 ha0
            have hclosure : ∀ b', ReachA (unparse h j).1 a0 b' →
                b' < (unparse h j).1.length := by
              intro b' hrb'
              exact (reach_in_seg (unparse h j).1 h.length
                (fun a' hlo o hget b'' hb'' =>
                  (unparse_bound.1 j h).2 a' o hlo hget b'' hb'')
                a0 hroot.1 hroot.2 b' hrb').2
            have hchain' := (reachA_extension (unparse h j).1 h2 hpre2 a0
              hclosure b).mp hchain
            have hseg := reach_in_seg (unparse h j).1 h.length
              (fun a' hlo o hget b'' hb'' =>
                (unparse_bound.1 j h).2 a' o hlo hget b'' hb'')
              a0 hroot.1 hroot.2 b hchain'
            have := hpre2.length_le
            omega
          · subst hundef
            rw [unparse_jundef] at hb
            obtain ⟨a0, ha0, _⟩ := hb
            cases ha0
        · -- the tail correspondence, transported from (unparse h j).1 to h
          refine forall2_imp_mem _ _ rest l' hcorr ?_
          intro e' he' er hcl
          obtain ⟨h1eq, h2eq, h3eq, h4eq, hobs, hrb⟩ := hcl
          refine ⟨h1eq, h2eq, h3eq, h4eq, ?_, ?_⟩
          · rw [hobs]
            exact serialize_stable h (unparse h j).1 e'.metadata hpre1
              (fun b hb => hwf e' (List.mem_cons_of_mem e he') b hb)
          · intro b hb
            have h5 := hrb b hb
            have h6 := hpre1.length_le
            omega

theorem reachV_trans (h : Heap) (r : JVal) (a0 b : Nat)
    (h1 : ReachV h r a0) (h2 : ReachA h a0 b) : ReachV h r b := by
  obtain ⟨c, rfl, hc⟩ := h1
  exact ⟨c, rfl, hc.trans h2⟩

theorem reachV_extension (h H : Heap) (hpre : h <+: H) (r : JVal)
    (hcl : ∀ b, ReachV h r b → b < h.length) (b : Nat) :
    ReachV H r b ↔ ReachV h r b := by
  constructor
  · rintro ⟨a0, rfl, hchain⟩
    exact ⟨a0, rfl, (reachA_extension h H hpre a0
      (fun b' hb' => hcl b' ⟨a0, rfl, hb'⟩) b).mp hchain⟩
  · rintro ⟨a0, rfl, hchain⟩
    exact ⟨a0, rfl, (reachA_extension h H hpre a0
      (fun b' hb' => hcl b' ⟨a0, rfl, hb'⟩) b).mpr hchain⟩

theorem forall2_mem_right {α β : Type} (R : α → β → Prop) (l : List α)
    (l2 : List β) (h : List.Forall₂ R l l2) :
    ∀ y ∈ l2, ∃ x ∈ l, R x y := by
  induction h with
  | nil => intro y hy; cases hy
  | cons hR hrest ih =>
    rename_i x y xs ys
    intro y' hy'
    rcases List.mem_cons.mp hy' with rfl | hy'
    · exact ⟨x, by simp, hR⟩
    · obtain ⟨x', hx', hR'⟩ := ih y' hy'
      exact ⟨x', by simp [hx'], hR'⟩

/-- Deep-cloning one value preserves its denotation, and the clone reaches
only the freshly allocated segment. -/
theorem clone_obs (h : Heap) (v : JVal) (j : Json)
    (hser : serialize h v = .ok j) :
    serialize (unparse h j).1 (unparse h j).2 = serialize h v ∧
    (∀ b, ReachV (unparse h j).1 (unparse h j).2 b →
      h.length ≤ b ∧ b < (unparse h j).1.length) := by
  rcases (serialize_ok_noUndef_main (serFuel h)).1 h [] v j hser with hnu | hundef
  · exact ⟨(serialize_unparse_ok_of_noUndef h j hnu).trans hser.symm,
      fun b hb => unparse_reach_seg h j b hb⟩
  · subst hundef
    constructor
    · rw [unparse_jundef]
      simp only [serialize, serializeV_vundef]
      exact hser.symm
    · intro b hb
      rw [unparse_jundef] at hb
      obtain ⟨a0, ha0, _⟩ := hb
      cases ha0

/-- Inversion of a successful deep-module `createEvent`. -/
theorem createEvent_deep_ok_shape (s : EState) (now : Int) (ty msg md : JVal)
    (retEv : EventRec) (m2 : String)
    (hres : (EventDeep.createEvent s now ty msg md).2 = .ok retEv m2) :
    ∃ (t m : String) (j : Json),
      asNonEmptyString ty = some t ∧ asNonEmptyString msg = some m ∧
      serialize s.heap md = .ok j ∧
      (EventDeep.createEvent s now ty msg md).1 =
        ⟨(unparse (unparse s.heap j).1 j).1,
         s.events ++ [⟨s.eventIdCounter, t, m, (unparse s.heap j).2, now⟩],
         s.eventIdCounter + 1⟩ ∧
      retEv = ⟨s.eventIdCounter, t, m, (unparse (unparse s.heap j).1 j).2, now⟩ := by
  unfold EventDeep.createEvent at hres ⊢
  split at hres
  · cases hres
  · split at hres
    · cases hres
    · split at hres
      · cases hres
      · rename_i oty t ht omsg m hm ofs fs hmf
        split at hres
        · cases hres
        · rename_i j hser
          dsimp only at hres ⊢
          obtain ⟨a, rfl, hget⟩ := metaFields_some_shape s.heap md fs hmf
          have hrt : serialize (unparse s.heap j).1 (unparse s.heap j).2 =
              .ok j := serialize_unparse_ok s.heap a j hser
          rw [hrt] at hres ⊢
          dsimp only at hres ⊢
          cases hres
          exact ⟨t, m, j, ht, hm, hser, rfl, rfl⟩

theorem stepDeep_mutate_ok (s : EState) (roots : List JVal) (a : Nat)
    (k : String) (v : JVal) (hinv : StoredOK s roots)
    (hleg : Legal s roots (.mutate a k v)) :
    StoredOK (stepDeep s roots (.mutate a k v)).1
      (stepDeep s roots (.mutate a k v)).2 ∧
    (stepDeep s roots (.mutate a k v)).1.events = s.events ∧
    (∀ e ∈ s.events,
      serialize (stepDeep s roots (.mutate a k v)).1.heap e.metadata =
        serialize s.heap e.metadata) := by
  obtain ⟨hstored, hcb⟩ := hinv
  obtain ⟨hac, hv⟩ := hleg
  have hlen := setField_length s.heap a k v
  have hnr : ∀ e ∈ s.events, ¬ReachV s.heap e.metadata a := by
    intro e he hcon
    exact (hstored e he a hcon).2 hac
  have hreach_eq : ∀ e ∈ s.events, ∀ b,
      ReachV (setField s.heap a k v) e.metadata b ↔ ReachV s.heap e.metadata b := by
    intro e he b
    constructor
    · rintro ⟨a0, hmeta, hchain⟩
      have hna : ¬ReachA s.heap a0 a := fun hcon => hnr e he ⟨a0, hmeta, hcon⟩
      exact ⟨a0, hmeta, (reachA_setField_eq s.heap a k v a0 hna b).mp hchain⟩
    · rintro ⟨a0, hmeta, hchain⟩
      have hna : ¬ReachA s.heap a0 a := fun hcon => hnr e he ⟨a0, hmeta, hcon⟩
      exact ⟨a0, hmeta, (reachA_setField_eq s.heap a k v a0 hna b).mpr hchain⟩
  refine ⟨⟨?_, ?_⟩, rfl, ?_⟩
  · intro e he b hb
    simp only [stepDeep] at hb ⊢
    have hold := (hreach_eq e he b).mp hb
    refine ⟨by rw [hlen]; exact (hstored e he b hold).1, ?_⟩
    intro hch
    exact (hstored e he b hold).2
      (callerHolds_setField_subset s.heap roots a k v hac hv b hch)
  · intro b hb
    simp only [stepDeep] at hb ⊢
    rw [hlen]
    exact hcb b (callerHolds_setField_subset s.heap roots a k v hac hv b hb)
  · intro e he
    simp only [stepDeep]
    exact serialize_setField_stable s.heap a k v e.metadata (hnr e he)

theorem stepDeep_clear_ok (s : EState) (roots : List JVal)
    (hinv : StoredOK s roots) :
    StoredOK (stepDeep s roots .clear).1 (stepDeep s roots .clear).2 ∧
    (∀ e ∈ s.events,
      serialize (stepDeep s roots .clear).1.heap e.metadata =
        serialize s.heap e.metadata) := by
  obtain ⟨_, hcb⟩ := hinv
  refine ⟨⟨?_, ?_⟩, ?_⟩
  · intro e he
    simp only [stepDeep, EventDeep.clearEvents] at he
    cases he
  · intro b hb
    simp only [stepDeep, EventDeep.clearEvents] at hb ⊢
    exact hcb b hb
  · intro e he
    rfl

theorem callerHolds_of_valHeld (h : Heap) (roots : List JVal) (v : JVal)
    (hv : ValHeld h roots v) (b : Nat) (hb : ReachV h v b) :
    CallerHolds h roots b := by
  obtain ⟨a0, rfl, hchain⟩ := hb
  obtain ⟨r, hr, hra⟩ := hv a0 rfl
  exact ⟨r, hr, reachV_trans h r a0 b hra hchain⟩

theorem callerHolds_cons_val (h : Heap) (roots : List JVal) (v : JVal)
    (hv : ValHeld h roots v) (b : Nat)
    (hb : CallerHolds h (v :: roots) b) : CallerHolds h roots b := by
  obtain ⟨r, hr, hrb⟩ := hb
  rcases List.mem_cons.mp hr with rfl | hr
  · exact callerHolds_of_valHeld h roots r hv b hrb
  · exact ⟨r, hr, hrb⟩

theorem stepDeep_create_ok (s : EState) (roots : List JVal) (now : Int)
    (ty msg md : JVal) (hinv : StoredOK s roots)
    (hleg : Legal s roots (.create now ty msg md)) :
    StoredOK (stepDeep s roots (.create now ty msg md)).1
      (stepDeep s roots (.create now ty msg md)).2 ∧
    (∀ e ∈ s.events, e ∈ (stepDeep s roots (.create now ty msg md)).1.events) ∧
    (∀ e ∈ s.events,
      serialize (stepDeep s roots (.create now ty msg md)).1.heap e.metadata =
        serialize s.heap e.metadata) := by
  obtain ⟨hstored, hcb⟩ := hinv
  have hmd : ValHeld s.heap roots md := hleg
  cases hres : (EventDeep.createEvent s now ty msg md).2 with
  | err emsg =>
    have hstate := createEvent_deep_err_state s now ty msg md emsg hres
    simp only [stepDeep, hres, hstate]
    refine ⟨⟨?_, ?_⟩, ?_, ?_⟩
    case refine_3 => intro e he; exact he
    case refine_4 => intro e he; trivial
    · intro e he b hb
      refine ⟨(hstored e he b hb).1, ?_⟩
      intro hch
      exact (hstored e he b hb).2
        (callerHolds_cons_val s.heap roots md hmd b hch)
    · intro b hb
      exact hcb b (callerHolds_cons_val s.heap roots md hmd b hb)
  | ok retEv m2 =>
    obtain ⟨t, m, j, ht, hm, hser, hstate, hretEv⟩ :=
      createEvent_deep_ok_shape s now ty msg md retEv m2 hres
    have hpre1 : s.heap <+: (unparse s.heap j).1 := unparse_pref.1 j s.heap
    have hpre2 : (unparse s.heap j).1 <+: (unparse (unparse s.heap j).1 j).1 :=
      unparse_pref.1 j (unparse s.heap j).1
    have hpre : s.heap <+: (unparse (unparse s.heap j).1 j).1 :=
      hpre1.trans hpre2
    have hlen1 : s.heap.length ≤ (unparse s.heap j).1.length := hpre1.length_le
    have hlen2 : (unparse s.heap j).1.length ≤
        (unparse (unparse s.heap j).1 j).1.length := hpre2.length_le
    have hpv : ∀ b, ReachV (unparse s.heap j).1 (unparse s.heap j).2 b →
        s.heap.length ≤ b ∧ b < (unparse s.heap j).1.length :=
      fun b hb => unparse_reach_seg s.heap j b hb
    have hpv2 : ∀ b, ReachV (unparse (unparse s.heap j).1 j).1
        (unparse s.heap j).2 b ↔ ReachV (unparse s.heap j).1
        (unparse s.heap j).2 b :=
      reachV_extension (unparse s.heap j).1 _ hpre2 (unparse s.heap j).2
        (fun b hb => (hpv b hb).2)
    have hqv : ∀ b, ReachV (unparse (unparse s.heap j).1 j).1
        (unparse (unparse s.heap j).1 j).2 b →
        (unparse s.heap j).1.length ≤ b ∧
        b < (unparse (unparse s.heap j).1 j).1.length :=
      fun b hb => unparse_reach_seg (unparse s.heap j).1 j b hb
    have holdreach : ∀ e ∈ s.events, ∀ b,
        ReachV (unparse (unparse s.heap j).1 j).1 e.metadata b ↔
        ReachV s.heap e.metadata b :=
      fun e he => reachV_extension s.heap _ hpre e.metadata
        (fun b hb => (hstored e he b hb).1)
    have hrootsreach : ∀ r ∈ roots, ∀ b,
        ReachV (unparse (unparse s.heap j).1 j).1 r b ↔ ReachV s.heap r b :=
      fun r hr => reachV_extension s.heap _ hpre r
        (fun b hb => hcb b ⟨r, hr, hb⟩)
    have hmdreach : ∀ b,
        ReachV (unparse (unparse s.heap j).1 j).1 md b ↔ ReachV s.heap md b :=
      reachV_extension s.heap _ hpre md
        (fun b hb => hcb b (callerHolds_of_valHeld s.heap roots md hmd b hb))
    have hcaller : ∀ b,
        CallerHolds (unparse (unparse s.heap j).1 j).1
          (retEv.metadata :: md :: roots) b →
        (((unparse s.heap j).1.length ≤ b ∧
          b < (unparse (unparse s.heap j).1 j).1.length) ∨
         CallerHolds s.heap roots b) := by
      intro b hb
      obtain ⟨r, hr, hrb⟩ := hb
      rcases List.mem_cons.mp hr with rfl | hr
      · rw [hretEv] at hrb
        exact Or.inl (hqv b hrb)
      · rcases List.mem_cons.mp hr with rfl | hr
        · exact Or.inr (callerHolds_of_valHeld s.heap roots r hmd b
            ((hmdreach b).mp hrb))
        · exact Or.inr ⟨r, hr, (hrootsreach r hr b).mp hrb⟩
    simp only [stepDeep, hres, hstate]
    try dsimp only
    refine ⟨⟨?_, ?_⟩, ?_, ?_⟩
    case refine_3 => intro e he; simp [he]
    case refine_4 =>
      intro e he
      exact serialize_stable s.heap _ e.metadata hpre
        (fun b hb => (hstored e he b hb).1)
    · intro e he b hb
      dsimp only at he hb ⊢
      simp only [List.mem_append, List.mem_singleton] at he
      rcases he with he | rfl
      · have hold := (holdreach e he b).mp hb
        have hb1 := (hstored e he b hold).1
        refine ⟨by omega, ?_⟩
        intro hch
        rcases hcaller b hch with ⟨hge, _⟩ | hcold
        · omega
        · exact (hstored e he b hold).2 hcold
      · simp only at hb
        have hseg := (hpv b) ((hpv2 b).mp hb)
        refine ⟨by omega, ?_⟩
        intro hch
        rcases hcaller b hch with ⟨hge, _⟩ | hcold
        · omega
        · have := hcb b hcold
          omega
    · intro b hb
      dsimp only at hb ⊢
      rcases hcaller b hb with ⟨_, hlt⟩ | hcold
      · exact hlt
      · have := hcb b hcold
        omega

theorem getEventById_deep_cases (s : EState) (i : JVal) :
    ((EventDeep.getEventById s i).1 = s ∧
      ∃ msg, (EventDeep.getEventById s i).2 = .err msg) ∨
    (∃ e, e ∈ s.events ∧ ∃ j, serialize s.heap e.metadata = .ok j ∧
      EventDeep.getEventById s i =
        (⟨(unparse s.heap j).1, s.events, s.eventIdCounter⟩,
         .ok ⟨e.id, e.type, e.message, (unparse s.heap j).2, e.timestamp⟩)) := by
  unfold EventDeep.getEventById
  split
  · rename_i n
    split
    · exact Or.inl ⟨rfl, _, rfl⟩
    · split
      · exact Or.inl ⟨rfl, _, rfl⟩
      · rename_i e hfind
        split
        · exact Or.inl ⟨rfl, _, rfl⟩
        · rename_i j hser
          exact Or.inr ⟨e, List.mem_of_find?_eq_some hfind, j, hser, rfl⟩
  · exact Or.inl ⟨rfl, _, rfl⟩

theorem getEvents_deep_cases (s : EState) (f : Option JVal) :
    ((EventDeep.getEvents s f).1 = s ∧
      ∃ msg, (EventDeep.getEvents s f).2 = .err msg) ∨
    (∃ fl h2 l2, fl.Sublist s.events ∧
      EventDeep.cloneEvents s.heap fl = .ok (h2, l2) ∧
      EventDeep.getEvents s f =
        (⟨h2, s.events, s.eventIdCounter⟩, .ok l2 fl.length)) := by
  unfold EventDeep.getEvents
  split
  · split
    · exact Or.inl ⟨rfl, _, rfl⟩
    · rename_i pr h2 l2 hclone
      refine Or.inr ⟨s.events, h2, l2, List.Sublist.refl _, hclone, ?_⟩
      simp
  · rename_i tv
    split
    · exact Or.inl ⟨rfl, _, rfl⟩
    · rename_i t ht
      dsimp only
      split
      · exact Or.inl ⟨rfl, _, rfl⟩
      · rename_i pr h2 l2 hclone
        exact Or.inr ⟨s.events.filter (fun e => e.type == t), h2, l2,
          List.filter_sublist _, hclone, rfl⟩

theorem stepDeep_byId_ok (s : EState) (roots : List JVal) (i : JVal)
    (hinv : StoredOK s roots) :
    StoredOK (stepDeep s roots (.byId i)).1 (stepDeep s roots (.byId i)).2 ∧
    (stepDeep s roots (.byId i)).1.events = s.events ∧
    (∀ e ∈ s.events,
      serialize (stepDeep s roots (.byId i)).1.heap e.metadata =
        serialize s.heap e.metadata) := by
  obtain ⟨hstored, hcb⟩ := hinv
  rcases getEventById_deep_cases s i with ⟨hst, msg, herr⟩ |
    ⟨e, he, j, hser, heq⟩
  · simp only [stepDeep, herr, hst]
    refine ⟨⟨hstored, hcb⟩, ?_, ?_⟩ <;>
      first
      | trivial
      | (intro e' he'; trivial)
  · have hres2 : (EventDeep.getEventById s i).2 =
        .ok ⟨e.id, e.type, e.message, (unparse s.heap j).2, e.timestamp⟩ := by
      rw [heq]
    have hst1 : (EventDeep.getEventById s i).1 =
        ⟨(unparse s.heap j).1, s.events, s.eventIdCounter⟩ := by
      rw [heq]
    have hpre1 : s.heap <+: (unparse s.heap j).1 := unparse_pref.1 j s.heap
    have hlen1 : s.heap.length ≤ (unparse s.heap j).1.length := hpre1.length_le
    have hcl := (clone_obs s.heap e.metadata j hser).2
    have holdreach : ∀ e' ∈ s.events, ∀ b,
        ReachV (unparse s.heap j).1 e'.metadata b ↔ ReachV s.heap e'.metadata b :=
      fun e' he' => reachV_extension s.heap _ hpre1 e'.metadata
        (fun b hb => (hstored e' he' b hb).1)
    have hrootsreach : ∀ r ∈ roots, ∀ b,
        ReachV (unparse s.heap j).1 r b ↔ ReachV s.heap r b :=
      fun r hr => reachV_extension s.heap _ hpre1 r
        (fun b hb => hcb b ⟨r, hr, hb⟩)
    have hcaller : ∀ b,
        CallerHolds (unparse s.heap j).1 ((unparse s.heap j).2 :: roots) b →
        ((s.heap.length ≤ b ∧ b < (unparse s.heap j).1.length) ∨
          CallerHolds s.heap roots b) := by
      intro b hb
      obtain ⟨r, hr, hrb⟩ := hb
      rcases List.mem_cons.mp hr with rfl | hr
      · exact Or.inl (hcl b hrb)
      · exact Or.inr ⟨r, hr, (hrootsreach r hr b).mp hrb⟩
    simp only [stepDeep, hres2, hst1]
    try dsimp only
    refine ⟨⟨?_, ?_⟩, by trivial, ?_⟩
    · intro e' he' b hb
      try dsimp only at he' hb ⊢
      have hold := (holdreach e' he' b).mp hb
      have hb1 := (hstored e' he' b hold).1
      refine ⟨by omega, ?_⟩
      intro hch
      rcases hcaller b hch with ⟨hge, _⟩ | hcold
      · omega
      · exact (hstored e' he' b hold).2 hcold
    · intro b hb
      try dsimp only at hb ⊢
      rcases hcaller b hb with ⟨_, hlt⟩ | hcold
      · exact hlt
      · have := hcb b hcold
        omega
    · intro e' he'
      try dsimp only
      exact serialize_stable s.heap _ e'.metadata hpre1
        (fun b hb => (hstored e' he' b hb).1)

theorem stepDeep_query_ok (s : EState) (roots : List JVal) (f : Option JVal)
    (hinv : StoredOK s roots) :
    StoredOK (stepDeep s roots (.query f)).1 (stepDeep s roots (.query f)).2 ∧
    (stepDeep s roots (.query f)).1.events = s.events ∧
    (∀ e ∈ s.events,
      serialize (stepDeep s roots (.query f)).1.heap e.metadata =
        serialize s.heap e.metadata) := by
  obtain ⟨hstored, hcb⟩ := hinv
  rcases getEvents_deep_cases s f with ⟨hst, msg, herr⟩ |
    ⟨fl, h2, l2, hsub, hclone, heq⟩
  · simp only [stepDeep, herr, hst]
    refine ⟨⟨hstored, hcb⟩, ?_, ?_⟩ <;>
      first
      | trivial
      | (intro e' he'; trivial)
  · have hres2 : (EventDeep.getEvents s f).2 = .ok l2 fl.length := by rw [heq]
    have hst1 : (EventDeep.getEvents s f).1 =
        ⟨h2, s.events, s.eventIdCounter⟩ := by rw [heq]
    have hwfl : ∀ e ∈ fl, ∀ b, ReachV s.heap e.metadata b → b < s.heap.length :=
      fun e he b hb => (hstored e (hsub.subset he) b hb).1
    obtain ⟨hpre, hcorr⟩ := cloneEvents_spec fl s.heap h2 l2 hwfl hclone
    have hlen1 : s.heap.length ≤ h2.length := hpre.length_le
    have hclonebound : ∀ r ∈ l2.map EventRec.metadata, ∀ b, ReachV h2 r b →
        s.heap.length ≤ b ∧ b < h2.length := by
      intro r hr b hb
      obtain ⟨er, her, rfl⟩ := List.mem_map.mp hr
      obtain ⟨e0, he0, hR⟩ := forall2_mem_right _ fl l2 hcorr er her
      exact hR.2.2.2.2.2 b hb
    have holdreach : ∀ e' ∈ s.events, ∀ b,
        ReachV h2 e'.metadata b ↔ ReachV s.heap e'.metadata b :=
      fun e' he' => reachV_extension s.heap h2 hpre e'.metadata
        (fun b hb => (hstored e' he' b hb).1)
    have hrootsreach : ∀ r ∈ roots, ∀ b,
        ReachV h2 r b ↔ ReachV s.heap r b :=
      fun r hr => reachV_extension s.heap h2 hpre r
        (fun b hb => hcb b ⟨r, hr, hb⟩)
    have hcaller : ∀ b,
        CallerHolds h2 (l2.map EventRec.metadata ++ roots) b →
        ((s.heap.length ≤ b ∧ b < h2.length) ∨ CallerHolds s.heap roots b) := by
      intro b hb
      obtain ⟨r, hr, hrb⟩ := hb
      rcases List.mem_append.mp hr with hr | hr
      · exact Or.inl (hclonebound r hr b hrb)
      · exact Or.inr ⟨r, hr, (hrootsreach r hr b).mp hrb⟩
    simp only [stepDeep, hres2, hst1]
    try dsimp only
    refine ⟨⟨?_, ?_⟩, by trivial, ?_⟩
    · intro e' he' b hb
      try dsimp only at he' hb ⊢
      have hold := (holdreach e' he' b).mp hb
      have hb1 := (hstored e' he' b hold).1
      refine ⟨by omega, ?_⟩
      intro hch
      rcases hcaller b hch with ⟨hge, _⟩ | hcold
      · omega
      · exact (hstored e' he' b hold).2 hcold
    · intro b hb
      try dsimp only at hb ⊢
      rcases hcaller b hb with ⟨_, hlt⟩ | hcold
      · exact hlt
      · have := hcb b hcold
        omega
    · intro e' he'
      try dsimp only
      exact serialize_stable s.heap h2 e'.metadata hpre
        (fun b hb => (hstored e' he' b hb).1)

theorem reachA_only_self (h : Heap) (a : Nat)
    (hvals : ∀ o, heapGet h a = some o → o.vals = []) (b : Nat)
    (hreach : ReachA h a b) : b = a := by
  rcases Relation.ReflTransGen.cases_head hreach with rfl | ⟨c, hstep, _⟩
  · rfl
  · obtain ⟨o, ho, hv⟩ := hstep
    rw [hvals o ho] at hv
    cases hv

/-- Claim C2 (amended, deep-copy module): in the deep-copy event module,
no sequence of caller-side mutations — of the metadata object passed to
`createEvent` or of any object returned by `createEvent`/`getEvents`/
`getEventById` — can change what a subsequent read returns for a stored
event: every caller action preserves the separation invariant, keeps every
stored event and its metadata denotation intact, and reads return deep
clones whose denotation equals the stored one.  (The claim as stated over
`src/event.js` is false, see the counterexample: that module only
shallow-copies metadata.) -/
theorem c2_deep_copy_isolation :
    (∀ (s : EState) (roots : List JVal) (act : Act),
      StoredOK s roots → Legal s roots act →
      StoredOK (stepDeep s roots act).1 (stepDeep s roots act).2 ∧
      (∀ e ∈ s.events, act ≠ Act.clear →
        e ∈ (stepDeep s roots act).1.events) ∧
      (∀ e ∈ s.events,
        serialize (stepDeep s roots act).1.heap e.metadata =
          serialize s.heap e.metadata)) ∧
    (∀ (s : EState) (i : JVal) (e' : EventRec),
      (EventDeep.getEventById s i).2 = .ok e' →
      ∃ e, e ∈ s.events ∧ e'.id = e.id ∧ e'.type = e.type ∧
        e'.message = e.message ∧ e'.timestamp = e.timestamp ∧
        serialize (EventDeep.getEventById s i).1.heap e'.metadata =
          serialize s.heap e.metadata) ∧
    (∀ (s : EState) (f : Option JVal) (l2 : List EventRec) (c : Nat),
      (∀ e ∈ s.events, ∀ b, ReachV s.heap e.metadata b → b < s.heap.length) →
      (EventDeep.getEvents s f).2 = .ok l2 c →
      ∃ fl, fl.Sublist s.events ∧
        List.Forall₂ (fun e er => er.id = e.id ∧ er.type = e.type ∧
          er.message = e.message ∧ er.timestamp = e.timestamp ∧
          serialize (EventDeep.getEvents s f).1.heap er.metadata =
            serialize s.heap e.metadata) fl l2) := by
  refine ⟨?_, ?_, ?_⟩
  · intro s roots act hinv hleg
    cases act with
    | mutate a k v =>
      obtain ⟨h1, h2, h3⟩ := stepDeep_mutate_ok s roots a k v hinv hleg
      exact ⟨h1, fun e he _ => h2 ▸ he, h3⟩
    | create now ty msg md =>
      obtain ⟨h1, h2, h3⟩ := stepDeep_create_ok s roots now ty msg md hinv hleg
      exact ⟨h1, fun e he _ => h2 e he, h3⟩
    | query f =>
      obtain ⟨h1, h2, h3⟩ := stepDeep_query_ok s roots f hinv
      exact ⟨h1, fun e he _ => h2 ▸ he, h3⟩
    | byId i =>
      obtain ⟨h1, h2, h3⟩ := stepDeep_byId_ok s roots i hinv
      exact ⟨h1, fun e he _ => h2 ▸ he, h3⟩
    | clear =>
      obtain ⟨h1, h2⟩ := stepDeep_clear_ok s roots hinv
      exact ⟨h1, fun e _ hne => absurd rfl hne, h2⟩
  · intro s i e' hok
    rcases getEventById_deep_cases s i with ⟨_, msg, herr⟩ |
      ⟨e, he, j, hser, heq⟩
    · rw [herr] at hok; cases hok
    · have he' : e' = ⟨e.id, e.type, e.message, (unparse s.heap j).2,
          e.timestamp⟩ := by
        rw [heq] at hok
        cases hok
        rfl
      have hst : (EventDeep.getEventById s i).1.heap = (unparse s.heap j).1 := by
        rw [heq]
      refine ⟨e, he, by rw [he'], by rw [he'], by rw [he'], by rw [he'], ?_⟩
      rw [he', hst]
      exact (clone_obs s.heap e.metadata j hser).1
  · intro s f l2 c hwf hok
    rcases getEvents_deep_cases s f with ⟨_, msg, herr⟩ |
      ⟨fl, h2, l2', hclone, heq⟩
    · rw [herr] at hok; cases hok
    · obtain ⟨hcl, heq2⟩ := heq
      have hl2 : l2 = l2' := by
        rw [heq2] at hok
        cases hok
        rfl
      subst hl2
      have hwfl : ∀ e ∈ fl, ∀ b, ReachV s.heap e.metadata b →
          b < s.heap.length :=
        fun e he b hb => hwf e (hclone.subset he) b hb
      obtain ⟨hpre, hcorr⟩ := cloneEvents_spec fl s.heap h2 l2 hwfl hcl
      have hst : (EventDeep.getEvents s f).1.heap = h2 := by rw [heq2]
      refine ⟨fl, hclone, ?_⟩
      refine hcorr.imp ?_
      intro e er hR
      rw [hst]
      exact ⟨hR.1, hR.2.1, hR.2.2.1, hR.2.2.2.1, hR.2.2.2.2.1⟩

/-- Counterexample to claim C2 as stated, on `src/event.js`: the call
stores only a shallow copy of the metadata, so mutating the nested member
`inner.x` of the caller's metadata object after `createEvent` returns
changes what a subsequent `getEventById` returns for that event — the
returned event's metadata now denotes `{inner: {x: 2}}` instead of
`{inner: {x: 1}}`. -/
theorem c2_isolation_counterexample :
    (EventJs.createEvent c2S0 5 (.vstr "t") (.vstr "m") (.vref 1)).2 =
      .ok ⟨1, "t", "m", .vref 2, 5⟩ "Event created successfully" ∧
    EventJs.getEventById c2S1 (.vnum 1) = .ok ⟨1, "t", "m", .vref 2, 5⟩ ∧
    EventJs.getEventById ⟨c2Mut, c2S1.events, c2S1.eventIdCounter⟩ (.vnum 1) =
      .ok ⟨1, "t", "m", .vref 2, 5⟩ ∧
    serialize c2S1.heap (.vref 2) =
      .ok (.jobj [("inner", .jobj [("x", .jnum 1)])]) ∧
    serialize c2Mut (.vref 2) =
      .ok (.jobj [("inner", .jobj [("x", .jnum 2)])]) ∧
    getField c2S1.heap (getField c2S1.heap (.vref 2) "inner") "x" = .vnum 1 ∧
    getField c2Mut (getField c2Mut (.vref 2) "inner") "x" = .vnum 2 ∧
    JVal.vnum 2 ≠ JVal.vnum 1 := by
  refine ⟨by decide, by decide, by decide, ?_, ?_, by decide, by decide,
    by decide⟩
  · show serialize [.obj [("x", .vnum 1)], .obj [("inner", .vref 0)],
      .obj [("inner", .vref 0)]] (.vref 2) = _
    simp [serialize, serFuel, serializeV_vref_obj, serializeFs_cons, heapGet,
      Json.isUndef, Except.map]
  · show serialize [.obj [("x", .vnum 2)], .obj [("inner", .vref 0)],
      .obj [("inner", .vref 0)]] (.vref 2) = _
    simp [serialize, serFuel, serializeV_vref_obj, serializeFs_cons, heapGet,
      Json.isUndef, Except.map]

/-- Witness for the amended C2 at a concrete input: from an empty store
whose caller holds one empty object, a legal `createEvent` action
preserves the separation invariant and every stored observation. -/
theorem c2_deep_copy_isolation_witness :
    (StoredOK c2WitState c2WitRoots ∧
      Legal c2WitState c2WitRoots c2WitAct) ∧
    (StoredOK (stepDeep c2WitState c2WitRoots c2WitAct).1
        (stepDeep c2WitState c2WitRoots c2WitAct).2 ∧
      (∀ e ∈ c2WitState.events, c2WitAct ≠ Act.clear →
        e ∈ (stepDeep c2WitState c2WitRoots c2WitAct).1.events) ∧
      (∀ e ∈ c2WitState.events,
        serialize (stepDeep c2WitState c2WitRoots c2WitAct).1.heap
          e.metadata = serialize c2WitState.heap e.metadata)) := by
  have hinv : StoredOK c2WitState c2WitRoots := by
    constructor
    · intro e he
      cases he
    · intro b hb
      obtain ⟨r, hr, hrb⟩ := hb
      simp only [c2WitRoots, List.mem_singleton] at hr
      subst hr
      obtain ⟨a0, ha0, hchain⟩ := hrb
      cases ha0
      have hb0 := reachA_only_self c2WitState.heap 0
        (fun o ho => by
          simp only [c2WitState, heapGet] at ho
          cases ho
          rfl) b hchain
      subst hb0
      decide
  have hleg : Legal c2WitState c2WitRoots c2WitAct := by
    intro a ha
    cases ha
    exact ⟨.vref 0, by simp [c2WitRoots], reachV_refl 0 _⟩
  exact ⟨⟨hinv, hleg⟩,
    c2_deep_copy_isolation.1 c2WitState c2WitRoots c2WitAct hinv hleg⟩

/-- A successful serialization never revisits the current path: every
address reachable from the serialized value(s) avoids `path`. -/
theorem serialize_ok_path_main (fuel : Nat) :
    (∀ (h : Heap) (path : List Nat) (v : JVal) (j : Json),
      serializeV h fuel path v = .ok j →
      ∀ b, ReachV h v b → b ∉ path) ∧
    (∀ (h : Heap) (path : List Nat) (l : List (String × JVal))
      (js : List (String × Json)),
      serializeFs h fuel path l = .ok js →
      ∀ kv ∈ l, ∀ b, ReachV h kv.2 b → b ∉ path) ∧
    (∀ (h : Heap) (path : List Nat) (l : List JVal) (js : List Json),
      serializeEs h fuel path l = .ok js →
      ∀ v ∈ l, ∀ b, ReachV h v b → b ∉ path) := by
  induction fuel using Nat.strong_induction_on with
  | _ fuel ih =>
  have hV : ∀ (h : Heap) (path : List Nat) (v : JVal) (j : Json),
      serializeV h fuel path v = .ok j →
      ∀ b, ReachV h v b → b ∉ path := by
    intro h path v j hok b hreach
    obtain ⟨a, heq, hab⟩ := hreach
    subst heq
    by_cases ha : a ∈ path
    · rw [serializeV_vref_mem h fuel path a ha] at hok
      cases hok
    · cases hget : heapGet h a with
      | none =>
        rcases Relation.ReflTransGen.cases_head hab with rfl | ⟨c, hstep, _⟩
        · exact ha
        · obtain ⟨o, hgeto, _⟩ := hstep
          rw [hget] at hgeto
          cases hgeto
      | some o =>
        cases fuel with
        | zero =>
          rw [serializeV_vref_zero h path a o ha hget] at hok
          cases hok
        | succ f =>
          cases o with
          | obj fs =>
            rw [serializeV_vref_obj h f path a fs ha hget] at hok
            cases hfs : serializeFs h f (a :: path) fs with
            | error e => rw [hfs] at hok; cases hok
            | ok js =>
              rcases Relation.ReflTransGen.cases_head hab with rfl | ⟨c, hstep, hcb⟩
              · exact ha
              · obtain ⟨o', hgeto, hmem⟩ := hstep
                rw [hget] at hgeto
                cases hgeto
                obtain ⟨kv, hkv, hsnd⟩ := List.mem_map.mp hmem
                have := (ih f (Nat.lt_succ_self f)).2.1 h (a :: path) fs js
                  hfs kv hkv b ⟨c, hsnd, hcb⟩
                exact fun hb => this (List.mem_cons_of_mem a hb)
          | arr es =>
            rw [serializeV_vref_arr h f path a es ha hget] at hok
            cases hes : serializeEs h f (a :: path) es with
            | error e => rw [hes] at hok; cases hok
            | ok js =>
              rcases Relation.ReflTransGen.cases_head hab with rfl | ⟨c, hstep, hcb⟩
              · exact ha
              · obtain ⟨o', hgeto, hmem⟩ := hstep
                rw [hget] at hgeto
                cases hgeto
                have := (ih f (Nat.lt_succ_self f)).2.2 h (a :: path) es js
                  hes (.vref c) hmem b ⟨c, rfl, hcb⟩
                exact fun hb => this (List.mem_cons_of_mem a hb)
  refine ⟨hV, ?_, ?_⟩
  · intro h path l
    induction l with
    | nil =>
      intro js _ kv hkv
      exact absurd hkv (List.not_mem_nil kv)
    | cons kv0 rest ihl =>
      intro js hok kv hkv b hreach
      obtain ⟨k, v⟩ := kv0
      rw [serializeFs_cons] at hok
      cases hv : serializeV h fuel path v with
      | error e => rw [hv] at hok; cases hok
      | ok jv =>
        rw [hv] at hok
        cases hrest : serializeFs h fuel path rest with
        | error e => rw [hrest] at hok; cases hok
        | ok jrest =>
          rcases List.mem_cons.mp hkv with rfl | hkvr
          · exact hV h path v jv hv b hreach
          · exact ihl jrest hrest kv hkvr b hreach
  · intro h path l
    induction l with
    | nil =>
      intro js _ v hv
      exact absurd hv (List.not_mem_nil v)
    | cons v0 rest ihl =>
      intro js hok v hvmem b hreach
      rw [serializeEs_cons] at hok
      cases hv : serializeV h fuel path v0 with
      | error e => rw [hv] at hok; cases hok
      | ok jv =>
        rw [hv] at hok
        cases hrest : serializeEs h fuel path rest with
        | error e => rw [hrest] at hok; cases hok
        | ok jrest =>
          rcases List.mem_cons.mp hvmem with rfl | hvr
          · exact hV h path v jv hv b hreach
          · exact ihl jrest hrest v hvr b hreach

/-- A successful serialization witnesses acyclicity: no address reachable
from the serialized value(s) lies on a cycle. -/
theorem serialize_ok_acyclic_main (fuel : Nat) :
    (∀ (h : Heap) (path : List Nat) (v : JVal) (j : Json),
      serializeV h fuel path v = .ok j →
      ∀ c, ReachV h v c → ¬ OnCycle h c) ∧
    (∀ (h : Heap) (path : List Nat) (l : List (String × JVal))
      (js : List (String × Json)),
      serializeFs h fuel path l = .ok js →
      ∀ kv ∈ l, ∀ c, ReachV h kv.2 c → ¬ OnCycle h c) ∧
    (∀ (h : Heap) (path : List Nat) (l : List JVal) (js : List Json),
      serializeEs h fuel path l = .ok js →
      ∀ v ∈ l, ∀ c, ReachV h v c → ¬ OnCycle h c) := by
  induction fuel using Nat.strong_induction_on with
  | _ fuel ih =>
  have hV : ∀ (h : Heap) (path : List Nat) (v : JVal) (j : Json),
      serializeV h fuel path v = .ok j →
      ∀ c, ReachV h v c → ¬ OnCycle h c := by
    intro h path v j hok c hreach honc
    obtain ⟨a, heq, hac⟩ := hreach
    subst heq
    by_cases ha : a ∈ path
    · rw [serializeV_vref_mem h fuel path a ha] at hok
      cases hok
    · cases hget : heapGet h a with
      | none =>
        rcases Relation.ReflTransGen.cases_head hac with rfl | ⟨d, hstep, _⟩
        · obtain ⟨b0, ⟨o, hgeto, _⟩, _⟩ := honc
          rw [hget] at hgeto
          cases hgeto
        · obtain ⟨o, hgeto, _⟩ := hstep
          rw [hget] at hgeto
          cases hgeto
      | some o =>
        cases fuel with
        | zero =>
          rw [serializeV_vref_zero h path a o ha hget] at hok
          cases hok
        | succ f =>
          cases o with
          | obj fs =>
            rw [serializeV_vref_obj h f path a fs ha hget] at hok
            cases hfs : serializeFs h f (a :: path) fs with
            | error e => rw [hfs] at hok; cases hok
            | ok js =>
              rcases Relation.ReflTransGen.cases_head hac with rfl | ⟨d, hstep, hdc⟩
              · obtain ⟨b0, ⟨o', hgeto, hmem⟩, hba⟩ := honc
                rw [hget] at hgeto
                cases hgeto
                obtain ⟨kv, hkv, hsnd⟩ := List.mem_map.mp hmem
                exact (serialize_ok_path_main f).2.1 h (a :: path) fs js hfs
                  kv hkv a ⟨b0, hsnd, hba⟩ (List.mem_cons_self a path)
              · obtain ⟨o', hgeto, hmem⟩ := hstep
                rw [hget] at hgeto
                cases hgeto
                obtain ⟨kv, hkv, hsnd⟩ := List.mem_map.mp hmem
                exact (ih f (Nat.lt_succ_self f)).2.1 h (a :: path) fs js
                  hfs kv hkv c ⟨d, hsnd, hdc⟩ honc
          | arr es =>
            rw [serializeV_vref_arr h f path a es ha hget] at hok
            cases hes : serializeEs h f (a :: path) es with
            | error e => rw [hes] at hok; cases hok
            | ok js =>
              rcases Relation.ReflTransGen.cases_head hac with rfl | ⟨d, hstep, hdc⟩
              · obtain ⟨b0, ⟨o', hgeto, hmem⟩, hba⟩ := honc
                rw [hget] at hgeto
                cases hgeto
                exact (serialize_ok_path_main f).2.2 h (a :: path) es js hes
                  (.vref b0) hmem a ⟨b0, rfl, hba⟩ (List.mem_cons_self a path)
              · obtain ⟨o', hgeto, hmem⟩ := hstep
                rw [hget] at hgeto
                cases hgeto
                exact (ih f (Nat.lt_succ_self f)).2.2 h (a :: path) es js
                  hes (.vref d) hmem c ⟨d, rfl, hdc⟩ honc
  refine ⟨hV, ?_, ?_⟩
  · intro h path l
    induction l with
    | nil =>
      intro js _ kv hkv
      exact absurd hkv (List.not_mem_nil kv)
    | cons kv0 rest ihl =>
      intro js hok kv hkv c hreach
      obtain ⟨k, v⟩ := kv0
      rw [serializeFs_cons] at hok
      cases hv : serializeV h fuel path v with
      | error e => rw [hv] at hok; cases hok
      | ok jv =>
        rw [hv] at hok
        cases hrest : serializeFs h fuel path rest with
        | error e => rw [hrest] at hok; cases hok
        | ok jrest =>
          rcases List.mem_cons.mp hkv with rfl | hkvr
          · exact hV h path v jv hv c hreach
          · exact ihl jrest hrest kv hkvr c hreach
  · intro h path l
    induction l with
    | nil =>
      intro js _ v hv
      exact absurd hv (List.not_mem_nil v)
    | cons v0 rest ihl =>
      intro js hok v hvmem c hreach
      rw [serializeEs_cons] at hok
      cases hv : serializeV h fuel path v0 with
      | error e => rw [hv] at hok; cases hok
      | ok jv =>
        rw [hv] at hok
        cases hrest : serializeEs h fuel path rest with
        | error e => rw [hrest] at hok; cases hok
        | ok jrest =>
          rcases List.mem_cons.mp hvmem with rfl | hvr
          · exact hV h path v jv hv c hreach
          · exact ihl jrest hrest v hvr c hreach

/-- Every member of a serializer path chains back to the path head through
references (the path head is the most recently entered object). -/
theorem chain_reach (h : Heap) : ∀ (xs : List Nat) (x0 a : Nat),
    List.Chain' (fun p q => Step h q p) (x0 :: xs) → a ∈ x0 :: xs →
    ReachA h a x0 := by
  intro xs
  induction xs with
  | nil =>
    intro x0 a _ ha
    rcases List.mem_cons.mp ha with rfl | h0
    · exact Relation.ReflTransGen.refl
    · exact absurd h0 (List.not_mem_nil a)
  | cons x1 rest ih =>
    intro x0 a hch ha
    have hcc := List.chain'_cons.mp hch
    rcases List.mem_cons.mp ha with rfl | h1
    · exact Relation.ReflTransGen.refl
    · exact Relation.ReflTransGen.tail (ih x1 a hcc.2 h1) hcc.1

/-- When the serializer reports a cycle, the serialized value really
contains one: under the invariant that the path is a reference chain and
the current value hangs off the path head, an `.error .cyc` outcome
produces an address reachable from the value that lies on a cycle. -/
theorem serialize_cyc_cycle_main (fuel : Nat) :
    (∀ (h : Heap) (path : List Nat) (v : JVal),
      serializeV h fuel path v = .error .cyc →
      List.Chain' (fun p q => Step h q p) path →
      (∀ a, v = .vref a → ∀ x0, path.head? = some x0 → Step h x0 a) →
      HasCycle h v) ∧
    (∀ (h : Heap) (path : List Nat) (l : List (String × JVal)),
      serializeFs h fuel path l = .error .cyc →
      List.Chain' (fun p q => Step h q p) path →
      (∀ kv ∈ l, ∀ a, kv.2 = .vref a → ∀ x0, path.head? = some x0 →
        Step h x0 a) →
      ∃ kv ∈ l, HasCycle h kv.2) ∧
    (∀ (h : Heap) (path : List Nat) (l : List JVal),
      serializeEs h fuel path l = .error .cyc →
      List.Chain' (fun p q => Step h q p) path →
      (∀ w ∈ l, ∀ a, w = .vref a → ∀ x0, path.head? = some x0 →
        Step h x0 a) →
      ∃ w ∈ l, HasCycle h w) := by
  induction fuel using Nat.strong_induction_on with
  | _ fuel ih =>
  have hV : ∀ (h : Heap) (path : List Nat) (v : JVal),
      serializeV h fuel path v = .error .cyc →
      List.Chain' (fun p q => Step h q p) path →
      (∀ a, v = .vref a → ∀ x0, path.head? = some x0 → Step h x0 a) →
      HasCycle h v := by
    intro h path v hres hch hv
    match v with
    | .vnull | .vundef | .vbool _ | .vnum _ | .vstr _ | .vfun _ =>
      simp at hres
    | .vref a =>
      by_cases ha : a ∈ path
      · cases path with
        | nil => exact absurd ha (List.not_mem_nil a)
        | cons x0 xs =>
          have hstep : Step h x0 a := hv a rfl x0 rfl
          have hax0 : ReachA h a x0 := chain_reach h xs x0 a hch ha
          exact ⟨x0, ⟨a, rfl, hax0⟩, ⟨a, hstep, hax0⟩⟩
      · cases hget : heapGet h a with
        | none =>
          rw [serializeV_vref_dangling h fuel path a ha hget] at hres
          cases hres
        | some o =>
          cases fuel with
          | zero =>
            rw [serializeV_vref_zero h path a o ha hget] at hres
            cases hres
          | succ f =>
            have hch' : List.Chain' (fun p q => Step h q p) (a :: path) := by
              cases path with
              | nil => exact List.chain'_singleton a
              | cons x0 xs => exact List.chain'_cons.mpr ⟨hv a rfl x0 rfl, hch⟩
            cases o with
            | obj fs =>
              rw [serializeV_vref_obj h f path a fs ha hget] at hres
              cases hfs : serializeFs h f (a :: path) fs with
              | ok js => rw [hfs] at hres; cases hres
              | error e =>
                rw [hfs] at hres
                cases hres
                have Hl : ∀ kv ∈ fs, ∀ b, kv.2 = .vref b →
                    ∀ y, (a :: path).head? = some y → Step h y b := by
                  intro kv hkv b hb y hy
                  cases hy
                  exact ⟨.obj fs, hget,
                    hb ▸ List.mem_map.mpr ⟨kv, hkv, rfl⟩⟩
                obtain ⟨kv, hkvmem, hcyc⟩ :=
                  (ih f (Nat.lt_succ_self f)).2.1 h (a :: path) fs hfs hch' Hl
                obtain ⟨c, hrv, honc⟩ := hcyc
                obtain ⟨d, hd, hdc⟩ := hrv
                refine ⟨c, ⟨a, rfl, Relation.ReflTransGen.head ?_ hdc⟩, honc⟩
                exact ⟨.obj fs, hget, hd ▸ List.mem_map.mpr ⟨kv, hkvmem, rfl⟩⟩
            | arr es =>
              rw [serializeV_vref_arr h f path a es ha hget] at hres
              cases hes : serializeEs h f (a :: path) es with
              | ok js => rw [hes] at hres; cases hres
              | error e =>
                rw [hes] at hres
                cases hres
                have Hl : ∀ w ∈ es, ∀ b, w = .vref b →
                    ∀ y, (a :: path).head? = some y → Step h y b := by
                  intro w hw b hb y hy
                  cases hy
                  exact ⟨.arr es, hget, hb ▸ hw⟩
                obtain ⟨w, hwmem, hcyc⟩ :=
                  (ih f (Nat.lt_succ_self f)).2.2 h (a :: path) es hes hch' Hl
                obtain ⟨c, hrv, honc⟩ := hcyc
                obtain ⟨d, hd, hdc⟩ := hrv
                refine ⟨c, ⟨a, rfl, Relation.ReflTransGen.head ?_ hdc⟩, honc⟩
                exact ⟨.arr es, hget, hd ▸ hwmem⟩
  refine ⟨hV, ?_, ?_⟩
  · intro h path l
    induction l with
    | nil =>
      intro hres _ _
      simp at hres
    | cons kv0 rest ihl =>
      intro hres hch Hl
      obtain ⟨k, v⟩ := kv0
      rw [serializeFs_cons] at hres
      cases hv : serializeV h fuel path v with
      | error e =>
        rw [hv] at hres
        cases hres
        exact ⟨(k, v), List.mem_cons_self _ _,
          hV h path v hv hch
            (fun a ha y hy => Hl (k, v) (List.mem_cons_self _ _) a ha y hy)⟩
      | ok jv =>
        rw [hv] at hres
        cases hrest : serializeFs h fuel path rest with
        | error e =>
          rw [hrest] at hres
          cases hres
          obtain ⟨kv, hkv, hc⟩ := ihl hrest hch
            (fun kv hkv => Hl kv (List.mem_cons_of_mem _ hkv))
          exact ⟨kv, List.mem_cons_of_mem _ hkv, hc⟩
        | ok jrest =>
          rw [hrest] at hres
          cases hres
  · intro h path l
    induction l with
    | nil =>
      intro hres _ _
      simp at hres
    | cons v0 rest ihl =>
      intro hres hch Hl
      rw [serializeEs_cons] at hres
      cases hv : serializeV h fuel path v0 with
      | error e =>
        rw [hv] at hres
        cases hres
        exact ⟨v0, List.mem_cons_self _ _,
          hV h path v0 hv hch
            (fun a ha y hy => Hl v0 (List.mem_cons_self _ _) a ha y hy)⟩
      | ok jv =>
        rw [hv] at hres
        cases hrest : serializeEs h fuel path rest with
        | error e =>
          rw [hrest] at hres
          cases hres
          obtain ⟨w, hw, hc⟩ := ihl hrest hch
            (fun w hw => Hl w (List.mem_cons_of_mem _ hw))
          exact ⟨w, List.mem_cons_of_mem _ hw, hc⟩
        | ok jrest =>
          rw [hrest] at hres
          cases hres

/-- With the fuel budget the code's model always supplies, fuel exhaustion
never happens. -/
theorem serialize_not_fuel (h : Heap) (v : JVal) :
    serialize h v ≠ .error .fuel := by
  unfold serialize serFuel
  exact (serialize_no_fuel_main (h.length + 1)).1 h [] v List.nodup_nil
    (fun b hb => absurd hb (List.not_mem_nil b)) (by simp)

/-- `JSON.stringify` fails exactly on values containing a true cyclic
reference. -/
theorem serialize_cyc_iff (h : Heap) (v : JVal) :
    serialize h v = .error .cyc ↔ HasCycle h v := by
  constructor
  · intro hres
    unfold serialize serFuel at hres
    exact (serialize_cyc_cycle_main (h.length + 1)).1 h [] v hres
      List.chain'_nil (fun a _ x0 hx0 => by cases hx0)
  · intro hcyc
    cases hres : serialize h v with
    | ok j =>
      obtain ⟨c, hrv, honc⟩ := hcyc
      unfold serialize serFuel at hres
      exact absurd honc
        ((serialize_ok_acyclic_main (h.length + 1)).1 h [] v j hres c hrv)
    | error e =>
      cases e with
      | cyc => rfl
      | fuel => exact absurd hres (serialize_not_fuel h v)

/-- Function-valued members of an object are silently dropped by the
serializer: the field list serializes exactly as if the member were
absent. -/
theorem serializeFs_drop_fun (h : Heap) (fuel : Nat) (path : List Nat)
    (k : String) (f : Nat) :
    ∀ (pre post : List (String × JVal)),
    serializeFs h fuel path (pre ++ (k, .vfun f) :: post) =
      serializeFs h fuel path (pre ++ post) := by
  intro pre
  induction pre with
  | nil =>
    intro post
    cases hrest : serializeFs h fuel path post with
    | error e =>
      simp [List.nil_append, serializeFs_cons, serializeV_vfun,
        Json.isUndef, hrest]
    | ok jrest =>
      simp [List.nil_append, serializeFs_cons, serializeV_vfun,
        Json.isUndef, hrest]
  | cons kv rest ih =>
    intro post
    obtain ⟨k0, v0⟩ := kv
    simp only [List.cons_append, serializeFs_cons, ih post]

/-- Counterexample to claim C3 as stated, on `src/event.js`: that module
never serializes the metadata at all, so `createEvent` succeeds on a
metadata object containing a true cyclic reference instead of failing with
a `SerializationError`. -/
theorem c3_serialization_counterexample :
    (EventJs.createEvent c3S0 7 (.vstr "t") (.vstr "m") (.vref 0)).2 =
      .ok ⟨1, "t", "m", .vref 1, 7⟩ "Event created successfully" ∧
    ((EventJs.createEvent c3S0 7 (.vstr "t") (.vstr "m") (.vref 0)).2).isOk
      = true ∧
    serialize c3Heap (.vref 0) = .error .cyc ∧
    HasCycle c3Heap (.vref 0) := by
  refine ⟨by decide, by decide, ?_, ?_⟩
  · simp [c3Heap, serialize, serFuel, serializeV_vref_obj, serializeFs_cons,
      serializeV_vref_mem, heapGet, Except.map]
  · exact ⟨0, reachV_refl 0 c3Heap,
      0, ⟨.obj [("self", .vref 0)], rfl, by simp [JObj.vals]⟩,
      Relation.ReflTransGen.refl⟩

/-- Claim C3 (amended, deep-copy module): for the deep-copy event module
(`src/unnamed/part_001`), once `type`, `message` and `metadata` pass
validation, `createEvent` returns the serialization-failure result exactly
when the metadata contains a true cyclic reference, and succeeds in every
other case; function-valued members inside metadata are silently dropped
by the serializer (the field list serializes as if the member were absent)
rather than failing the call.  The original claim names this behaviour but
attributes it to `src/event.js` as well, whose `createEvent` never
serializes and thus succeeds even on cyclic metadata. -/
theorem c3_cycle_error_iff :
    (∀ (s : EState) (now : Int) (ty msg md : JVal) (t m : String)
      (fs : List (String × JVal)),
      asNonEmptyString ty = some t →
      asNonEmptyString msg = some m →
      metaFields s.heap md = some fs →
      (((EventDeep.createEvent s now ty msg md).2 =
          .err "Metadata contains non-serializable data (e.g., circular references, functions)") ↔
        HasCycle s.heap md) ∧
      (¬ HasCycle s.heap md →
        ((EventDeep.createEvent s now ty msg md).2).isOk = true)) ∧
    (∀ (h : Heap) (fuel : Nat) (path : List Nat) (k : String) (f : Nat)
      (pre post : List (String × JVal)),
      serializeFs h fuel path (pre ++ (k, .vfun f) :: post) =
        serializeFs h fuel path (pre ++ post)) := by
  refine ⟨?_, fun h fuel path k f pre post =>
    serializeFs_drop_fun h fuel path k f pre post⟩
  intro s now ty msg md t m fs ht hm hmf
  obtain ⟨a, rfl, hget⟩ := metaFields_some_shape s.heap md fs hmf
  unfold EventDeep.createEvent
  simp only [ht, hm, hmf]
  cases hser : serialize s.heap (.vref a) with
  | error e =>
    have hcyc : HasCycle s.heap (.vref a) := by
      cases e with
      | fuel => exact absurd hser (serialize_not_fuel _ _)
      | cyc => exact (serialize_cyc_iff _ _).mp hser
    exact ⟨⟨fun _ => hcyc, fun _ => rfl⟩, fun hnc => absurd hcyc hnc⟩
  | ok j =>
    have hrt : serialize (unparse s.heap j).1 (unparse s.heap j).2 = .ok j :=
      serialize_unparse_ok s.heap a j hser
    have hnc : ¬ HasCycle s.heap (.vref a) := by
      intro hc
      have hcs := (serialize_cyc_iff s.heap (.vref a)).mpr hc
      rw [hser] at hcs
      cases hcs
    dsimp only
    rw [hrt]
    exact ⟨⟨fun hres => absurd hres (by simp), fun hcyc => absurd hcyc hnc⟩,
      fun _ => rfl⟩

/-- Witness for the amended C3 at a concrete input: the self-referencing
metadata object of the counterexample heap, passed to the deep-copy
module's `createEvent`, exercises the cycle characterization. -/
theorem c3_cycle_error_iff_witness :
    (asNonEmptyString (.vstr "t") = some "t" ∧
     asNonEmptyString (.vstr "m") = some "m" ∧
     metaFields c3S0.heap (.vref 0) = some [("self", .vref 0)]) ∧
    ((((EventDeep.createEvent c3S0 7 (.vstr "t") (.vstr "m") (.vref 0)).2 =
        .err "Metadata contains non-serializable data (e.g., circular references, functions)") ↔
      HasCycle c3S0.heap (.vref 0)) ∧
     (¬ HasCycle c3S0.heap (.vref 0) →
      ((EventDeep.createEvent c3S0 7 (.vstr "t") (.vstr "m")
        (.vref 0)).2).isOk = true)) :=
  ⟨⟨by decide, by decide, by decide⟩,
   c3_cycle_error_iff.1 c3S0 7 (.vstr "t") (.vstr "m") (.vref 0) "t" "m"
     [("self", .vref 0)] (by decide) (by decide) (by decide)⟩

theorem getField_last (h : Heap) (fs : List (String × JVal)) (k : String) :
    getField (h ++ [.obj fs]) (.vref h.length) k = lookupF fs k := by
  simp [getField, heapGet_append_len, lookupF]

theorem metaFields_last (h : Heap) (fs : List (String × JVal)) :
    metaFields (h ++ [.obj fs]) (.vref h.length) = some fs := by
  simp [metaFields, heapGet_append_len]

/-- What one audit emission of the audit-logging login does to the store:
it allocates the metadata literal and its enriched copy, and appends
exactly one event of the given (trimmed) type and message, with the
current id and timestamp. -/
theorem emitAudit_spec (s : EState) (now : Int) (ty msg : String)
    (fs : List (String × JVal)) (ty2 m2 : String)
    (ht : asNonEmptyString (.vstr ty) = some ty2)
    (hm : asNonEmptyString (.vstr msg) = some m2) :
    LoginAudit.emitAudit s now ty msg fs =
      ⟨s.heap ++ [.obj fs] ++ [.obj (audEnrich fs now)]
          ++ [.obj (audEnrich fs now)],
       s.events ++ [⟨s.eventIdCounter, ty2, m2,
         .vref (s.heap.length + 1 + 1), now⟩],
       s.eventIdCounter + 1⟩ := by
  unfold LoginAudit.emitAudit EventJs.createAuditEvent EventJs.createEvent
    allocObj
  dsimp only
  rw [getField_last, getField_last, metaFields_last, ht, hm, metaFields_last]
  dsimp only
  simp [audEnrich, List.length_append]

/-- Counterexample to claim C4 as stated, on `src/login.js`: that login
variant performs no audit logging whatsoever — a failing validation stage
(empty username) returns its error without appending any audit event, the
store is untouched. -/
theorem c4_no_audit_counterexample :
    (LoginJs.loginWithStore c4S0 (.vstr "") (.vstr "x")).2 =
      .err "Username cannot be empty" ∧
    (LoginJs.loginWithStore c4S0 (.vstr "") (.vstr "x")).1.events = [] ∧
    (LoginJs.loginWithStore c4S0 (.vstr "") (.vstr "x")).1 = c4S0 :=
  ⟨by decide, by decide, rfl⟩

theorem getField_at (h : Heap) (a : Nat) (fs : List (String × JVal))
    (k : String) (hget : heapGet h a = some (.obj fs)) :
    getField h (.vref a) k = lookupF fs k := by
  simp [getField, hget, lookupF]

theorem heapGet_append5 (h : Heap) (o1 o2 o3 o4 o5 o6 : JObj) :
    heapGet (h ++ [o1] ++ [o2] ++ [o3] ++ [o4] ++ [o5] ++ [o6])
      ((h ++ [o1] ++ [o2] ++ [o3]).length + 1 + 1) = some o6 := by
  have hl : (h ++ [o1] ++ [o2] ++ [o3]).length + 1 + 1 =
      (h ++ [o1] ++ [o2] ++ [o3] ++ [o4] ++ [o5]).length := by simp
  rw [hl]
  exact heapGet_append_len _ o6

/-- Claim C4 (amended, audit-logging login variant): the claim holds for
the login of `src/unnamed/part_004`, which logs through
`createAuditEvent`: every validation failure stage appends exactly one
audit event of the appropriate type (`LOGIN_FAILURE` or
`SUSPICIOUS_ACTIVITY`) before returning its error; once the inputs pass
type, length, non-emptiness and character-set validation a
`LOGIN_ATTEMPT` event is appended unconditionally, followed by exactly one
outcome event — `LOGIN_FAILURE` on unknown user or wrong password,
`LOGIN_SUCCESS` carrying the username and role on success.  It fails for
`src/login.js`, whose login performs no audit logging at all. -/
theorem c4_audit_on_every_path :
    (∀ (s : EState) (now : Int) (username password : JVal),
      (∀ str, username ≠ .vstr str) →
      ∃ md, (LoginAudit.login s now username password).1.events =
          s.events ++ [⟨s.eventIdCounter, EventJs.LOGIN_FAILURE,
            "Login failed: Invalid username type", md, now⟩] ∧
        (LoginAudit.login s now username password).2 =
          .err "Username is required and must be a string") ∧
    (∀ (s : EState) (now : Int) (u : String) (password : JVal),
      (∀ str, password ≠ .vstr str) →
      ∃ md, (LoginAudit.login s now (.vstr u) password).1.events =
          s.events ++ [⟨s.eventIdCounter, EventJs.LOGIN_FAILURE,
            "Login failed: Invalid password type", md, now⟩] ∧
        (LoginAudit.login s now (.vstr u) password).2 =
          .err "Password is required and must be a string") ∧
    (∀ (s : EState) (now : Int) (u p : String),
      u.length > 255 →
      ∃ md, (LoginAudit.login s now (.vstr u) (.vstr p)).1.events =
          s.events ++ [⟨s.eventIdCounter, EventJs.SUSPICIOUS_ACTIVITY,
            "Suspicious activity: Username exceeds maximum length", md, now⟩] ∧
        (LoginAudit.login s now (.vstr u) (.vstr p)).2 =
          .err "Username is too long (maximum 255 characters)") ∧
    (∀ (s : EState) (now : Int) (u p : String),
      ¬ u.length > 255 → p.length > 255 →
      ∃ md, (LoginAudit.login s now (.vstr u) (.vstr p)).1.events =
          s.events ++ [⟨s.eventIdCounter, EventJs.SUSPICIOUS_ACTIVITY,
            "Suspicious activity: Password exceeds maximum length", md, now⟩] ∧
        (LoginAudit.login s now (.vstr u) (.vstr p)).2 =
          .err "Password is too long (maximum 255 characters)") ∧
    (∀ (s : EState) (now : Int) (u p : String),
      ¬ u.length > 255 → ¬ p.length > 255 →
      (jsTrim u).data.isEmpty = true →
      ∃ md, (LoginAudit.login s now (.vstr u) (.vstr p)).1.events =
          s.events ++ [⟨s.eventIdCounter, EventJs.LOGIN_FAILURE,
            "Login failed: Empty username", md, now⟩] ∧
        (LoginAudit.login s now (.vstr u) (.vstr p)).2 =
          .err "Username cannot be empty") ∧
    (∀ (s : EState) (now : Int) (u p : String),
      ¬ u.length > 255 → ¬ p.length > 255 →
      (jsTrim u).data.isEmpty = false →
      (jsTrim p).data.isEmpty = true →
      ∃ md, (LoginAudit.login s now (.vstr u) (.vstr p)).1.events =
          s.events ++ [⟨s.eventIdCounter, EventJs.LOGIN_FAILURE,
            "Login failed: Empty password", md, now⟩] ∧
        (LoginAudit.login s now (.vstr u) (.vstr p)).2 =
          .err "Password cannot be empty") ∧
    (∀ (s : EState) (now : Int) (u p : String),
      ¬ u.length > 255 → ¬ p.length > 255 →
      (jsTrim u).data.isEmpty = false →
      (jsTrim p).data.isEmpty = false →
      patternTest (jsTrim u) = false →
      ∃ md, (LoginAudit.login s now (.vstr u) (.vstr p)).1.events =
          s.events ++ [⟨s.eventIdCounter, EventJs.SUSPICIOUS_ACTIVITY,
            "Suspicious activity: Username contains invalid characters",
            md, now⟩] ∧
        (LoginAudit.login s now (.vstr u) (.vstr p)).2 =
          .err "Username contains invalid characters (only letters, numbers, dots, hyphens, and underscores allowed)") ∧
    (∀ (s : EState) (now : Int) (u p : String),
      ¬ u.length > 255 → ¬ p.length > 255 →
      (jsTrim u).data.isEmpty = false →
      (jsTrim p).data.isEmpty = false →
      patternTest (jsTrim u) = true →
      ∃ md1 ev2, (LoginAudit.login s now (.vstr u) (.vstr p)).1.events =
          s.events ++ [⟨s.eventIdCounter, EventJs.LOGIN_ATTEMPT,
            "User login attempt", md1, now⟩] ++ [ev2] ∧
        ev2.id = s.eventIdCounter + 1 ∧ ev2.timestamp = now ∧
        (users.find? (fun x => x.username == jsTrim u) = none →
          ev2.type = EventJs.LOGIN_FAILURE ∧
          ev2.message = "Login failed: User not found" ∧
          (LoginAudit.login s now (.vstr u) (.vstr p)).2 =
            .err "Invalid username or password") ∧
        (∀ usr, users.find? (fun x => x.username == jsTrim u) = some usr →
          (usr.password ≠ jsTrim p →
            ev2.type = EventJs.LOGIN_FAILURE ∧
            ev2.message = "Login failed: Incorrect password" ∧
            (LoginAudit.login s now (.vstr u) (.vstr p)).2 =
              .err "Invalid username or password") ∧
          (usr.password = jsTrim p →
            ev2.type = EventJs.LOGIN_SUCCESS ∧
            ev2.message = "User logged in successfully" ∧
            (LoginAudit.login s now (.vstr u) (.vstr p)).2 =
              .ok usr.username usr.role "Login successful" ∧
            getField (LoginAudit.login s now (.vstr u) (.vstr p)).1.heap
              ev2.metadata "username" = .vstr usr.username ∧
            getField (LoginAudit.login s now (.vstr u) (.vstr p)).1.heap
              ev2.metadata "role" = .vstr usr.role))) := by
  refine ⟨?_, ?_, ?_, ?_, ?_, ?_, ?_, ?_⟩
  · intro s now username password hns
    cases username
    case vstr u => exact absurd rfl (hns u)
    all_goals
      unfold LoginAudit.login
    all_goals
      dsimp only
    all_goals
      refine ⟨.vref (s.heap.length + 1 + 1), ?_, rfl⟩
    all_goals
      rw [emitAudit_spec s now EventJs.LOGIN_FAILURE
        "Login failed: Invalid username type" _ EventJs.LOGIN_FAILURE
        "Login failed: Invalid username type" (by decide) (by decide)]
  · intro s now u password hns
    cases password
    case vstr p => exact absurd rfl (hns p)
    all_goals
      unfold LoginAudit.login
    all_goals
      dsimp only
    all_goals
      refine ⟨.vref (s.heap.length + 1 + 1), ?_, rfl⟩
    all_goals
      rw [emitAudit_spec s now EventJs.LOGIN_FAILURE
        "Login failed: Invalid password type" _ EventJs.LOGIN_FAILURE
        "Login failed: Invalid password type" (by decide) (by decide)]
  · intro s now u p hlen
    unfold LoginAudit.login
    dsimp only
    rw [if_pos hlen]
    refine ⟨.vref (s.heap.length + 1 + 1), ?_, rfl⟩
    rw [emitAudit_spec s now EventJs.SUSPICIOUS_ACTIVITY
      "Suspicious activity: Username exceeds maximum length" _
      EventJs.SUSPICIOUS_ACTIVITY
      "Suspicious activity: Username exceeds maximum length"
      (by decide) (by decide)]
  · intro s now u p hul hpl
    unfold LoginAudit.login
    dsimp only
    rw [if_neg hul, if_pos hpl]
    refine ⟨.vref (s.heap.length + 1 + 1), ?_, rfl⟩
    rw [emitAudit_spec s now EventJs.SUSPICIOUS_ACTIVITY
      "Suspicious activity: Password exceeds maximum length" _
      EventJs.SUSPICIOUS_ACTIVITY
      "Suspicious activity: Password exceeds maximum length"
      (by decide) (by decide)]
  · intro s now u p hul hpl hue
    unfold LoginAudit.login
    dsimp only
    rw [if_neg hul, if_neg hpl, if_pos hue]
    refine ⟨.vref (s.heap.length + 1 + 1), ?_, rfl⟩
    rw [emitAudit_spec s now EventJs.LOGIN_FAILURE
      "Login failed: Empty username" _ EventJs.LOGIN_FAILURE
      "Login failed: Empty username" (by decide) (by decide)]
  · intro s now u p hul hpl hue hpe
    unfold LoginAudit.login
    dsimp only
    rw [if_neg hul, if_neg hpl, if_neg (by simp [hue]), if_pos hpe]
    refine ⟨.vref (s.heap.length + 1 + 1), ?_, rfl⟩
    rw [emitAudit_spec s now EventJs.LOGIN_FAILURE
      "Login failed: Empty password" _ EventJs.LOGIN_FAILURE
      "Login failed: Empty password" (by decide) (by decide)]
  · intro s now u p hul hpl hue hpe hpat
    unfold LoginAudit.login
    dsimp only
    rw [if_neg hul, if_neg hpl, if_neg (by simp [hue]),
      if_neg (by simp [hpe]), if_pos (by simp [hpat])]
    refine ⟨.vref (s.heap.length + 1 + 1), ?_, rfl⟩
    rw [emitAudit_spec s now EventJs.SUSPICIOUS_ACTIVITY
      "Suspicious activity: Username contains invalid characters" _
      EventJs.SUSPICIOUS_ACTIVITY
      "Suspicious activity: Username contains invalid characters"
      (by decide) (by decide)]
  · intro s now u p hul hpl hue hpe hpat
    unfold LoginAudit.login
    dsimp only
    rw [if_neg hul, if_neg hpl, if_neg (by simp [hue]),
      if_neg (by simp [hpe]), if_neg (by simp [hpat])]
    rw [emitAudit_spec s now EventJs.LOGIN_ATTEMPT "User login attempt" _
      EventJs.LOGIN_ATTEMPT "User login attempt" (by decide) (by decide)]
    try dsimp only
    cases hfind : users.find? (fun x => x.username == jsTrim u) with
    | none =>
      try dsimp only
      rw [emitAudit_spec _ now EventJs.LOGIN_FAILURE
        "Login failed: User not found" _ EventJs.LOGIN_FAILURE
        "Login failed: User not found" (by decide) (by decide)]
      dsimp only
      refine ⟨_, _, rfl, rfl, rfl, fun _ => ⟨rfl, rfl, rfl⟩,
        fun usr husr => ?_⟩
      cases husr
    | some usr =>
      try dsimp only
      by_cases hpw : usr.password = jsTrim p
      · rw [if_neg (fun hne => hne hpw)]
        rw [emitAudit_spec _ now EventJs.LOGIN_SUCCESS
          "User logged in successfully" _ EventJs.LOGIN_SUCCESS
          "User logged in successfully" (by decide) (by decide)]
        dsimp only
        refine ⟨_, _, rfl, rfl, rfl, fun hnone => ?_, fun usr' husr' => ?_⟩
        · cases hnone
        · cases husr'
          refine ⟨fun hne => absurd hpw hne, fun _ => ⟨rfl, rfl, rfl, ?_, ?_⟩⟩
          · dsimp only
            rw [getField_at _ _ _ _ (heapGet_append5 s.heap _ _ _ _ _ _)]
            simp [audEnrich, objLit, setF, lookupF, truthy, List.lookup]
          · dsimp only
            rw [getField_at _ _ _ _ (heapGet_append5 s.heap _ _ _ _ _ _)]
            simp [audEnrich, objLit, setF, lookupF, truthy, List.lookup]
      · rw [if_pos hpw]
        rw [emitAudit_spec _ now EventJs.LOGIN_FAILURE
          "Login failed: Incorrect password" _ EventJs.LOGIN_FAILURE
          "Login failed: Incorrect password" (by decide) (by decide)]
        dsimp only
        refine ⟨_, _, rfl, rfl, rfl, fun hnone => ?_, fun usr' husr' => ?_⟩
        · cases hnone
        · cases husr'
          exact ⟨fun _ => ⟨rfl, rfl, rfl⟩, fun heq => absurd heq hpw⟩

/-- Witness for the amended C4 at a concrete input: the
`("admin","admin123")` login against an empty store passes validation, so
the theorem yields the attempt/outcome audit-trail characterization. -/
theorem c4_audit_on_every_path_witness :
    (¬ "admin".length > 255 ∧ ¬ "admin123".length > 255 ∧
     (jsTrim "admin").data.isEmpty = false ∧
     (jsTrim "admin123").data.isEmpty = false ∧
     patternTest (jsTrim "admin") = true) ∧
    (∃ md1 ev2,
      (LoginAudit.login c4S0 3 (.vstr "admin") (.vstr "admin123")).1.events =
        c4S0.events ++ [⟨c4S0.eventIdCounter, EventJs.LOGIN_ATTEMPT,
          "User login attempt", md1, 3⟩] ++ [ev2] ∧
      ev2.id = c4S0.eventIdCounter + 1 ∧ ev2.timestamp = 3 ∧
      (users.find? (fun x => x.username == jsTrim "admin") = none →
        ev2.type = EventJs.LOGIN_FAILURE ∧
        ev2.message = "Login failed: User not found" ∧
        (LoginAudit.login c4S0 3 (.vstr "admin") (.vstr "admin123")).2 =
          .err "Invalid username or password") ∧
      (∀ usr, users.find? (fun x => x.username == jsTrim "admin") =
          some usr →
        (usr.password ≠ jsTrim "admin123" →
          ev2.type = EventJs.LOGIN_FAILURE ∧
          ev2.message = "Login failed: Incorrect password" ∧
          (LoginAudit.login c4S0 3 (.vstr "admin") (.vstr "admin123")).2 =
            .err "Invalid username or password") ∧
        (usr.password = jsTrim "admin123" →
          ev2.type = EventJs.LOGIN_SUCCESS ∧
          ev2.message = "User logged in successfully" ∧
          (LoginAudit.login c4S0 3 (.vstr "admin") (.vstr "admin123")).2 =
            .ok usr.username usr.role "Login successful" ∧
          getField (LoginAudit.login c4S0 3 (.vstr "admin")
              (.vstr "admin123")).1.heap
            ev2.metadata "username" = .vstr usr.username ∧
          getField (LoginAudit.login c4S0 3 (.vstr "admin")
              (.vstr "admin123")).1.heap
            ev2.metadata "role" = .vstr usr.role))) :=
  ⟨⟨by decide, by decide, by decide, by decide, by decide⟩,
   c4_audit_on_every_path.2.2.2.2.2.2.2 c4S0 3 "admin" "admin123"
     (by decide) (by decide) (by decide) (by decide) (by decide)⟩
